import Mathlib

/-!
# Verification of the TEI editor's validation and transformation engine

Shallow embedding of the core logic of `tei-editor.tsx` (the reference
variant of the editor): the structural TEI validator (`validateTEI`), the
canonical formatter (`formatXML`), and the linear undo/redo history
(`addToHistory` / `undo` / `redo`).  XML documents are modelled as trees of
element and text nodes; the browser's `DOMParser` / `XMLSerializer` (platform
code, not part of this repository) are modelled from the spec by an
executable strict parser and serializer over the same tree type.
-/

set_option autoImplicit false

namespace TEIEditor

/-- The kind of a validation message (`type` field in the source). -/
inductive MsgType where
  | error
  | success
  | warning
deriving DecidableEq, Repr

/-- A validation message, `{type, message}` in the source. -/
structure VMsg where
  type : MsgType
  message : String
deriving DecidableEq, Repr

/-- An XML DOM node: an element (qualified tag name, resolved namespace URI,
attributes in document order, children in document order) or a text node. -/
inductive XNode where
  | elem (tagName : String) (namespaceURI : Option String)
      (attrs : List (String × String)) (kids : List XNode)
  | text (s : String)

namespace XNode

/-- Whether the node is an element. -/
def isElem : XNode → Bool
  | .elem _ _ _ _ => true
  | .text _ => false

/-- The qualified tag name (`tagName` in the DOM); `""` for text nodes. -/
def name : XNode → String
  | .elem n _ _ _ => n
  | .text _ => ""

/-- The resolved namespace URI (`namespaceURI` in the DOM). -/
def ns : XNode → Option String
  | .elem _ u _ _ => u
  | .text _ => none

/-- The attribute list of an element; `[]` for text nodes. -/
def attrList : XNode → List (String × String)
  | .elem _ _ a _ => a
  | .text _ => []

/-- The child list of an element; `[]` for text nodes. -/
def kids : XNode → List XNode
  | .elem _ _ _ k => k
  | .text _ => []

mutual

/-- All proper descendants of a node, in document (pre-)order.  This is the
search space of the DOM's `getElementsByTagName` on an element. -/
def descendants : XNode → List XNode
  | .elem _ _ _ k => descList k
  | .text _ => []

/-- Descendant enumeration of a child list: each child followed by its own
descendants, in order. -/
def descList : List XNode → List XNode
  | [] => []
  | k :: ks => k :: (descendants k ++ descList ks)

end

/-- The local name of a node: the part of the qualified tag name after the
last `:` (the whole name when there is no prefix). -/
def localName (n : XNode) : String :=
  String.mk ((n.name.data.reverse.takeWhile (fun c => c ≠ ':')).reverse)

end XNode

/-- `e.getElementsByTagName t`: all descendant elements of `e` whose
qualified tag name equals `t`, in document order. -/
def getElems (e : XNode) (t : String) : List XNode :=
  e.descendants.filter (fun n => n.isElem && n.name == t)

/-- `e.getElementsByTagName(t)[0]`: the first matching descendant element,
if any. -/
def getFirst (e : XNode) (t : String) : Option XNode :=
  (getElems e t).head?

/-- Whether `e` has some descendant element with qualified tag name `t`. -/
def hasTag (e : XNode) (t : String) : Bool :=
  (getFirst e t).isSome

/-- The fixed TEI namespace string from the source. -/
def teiNS : String := "http://www.tei-c.org/ns/1.0"

/-- "L'elemento radice deve essere `<TEI>`" (apostrophe written `\x27`). -/
def rootErrTxt : String := "L\x27elemento radice deve essere <TEI>"

/-- Namespace error text from the source. -/
def nsErrTxt : String := "Namespace TEI mancante o non corretto"

/-- Missing `teiHeader` error text. -/
def hdrErrTxt : String := "Elemento <teiHeader> mancante"

/-- Missing `text` error text. -/
def textErrTxt : String := "Elemento <text> mancante"

/-- Missing `fileDesc` error text. -/
def fileDescErrTxt : String := "Elemento <fileDesc> mancante in teiHeader"

/-- Missing required child of `fileDesc` error text, for child tag `e`. -/
def inFileDescErrTxt (e : String) : String :=
  "Elemento <" ++ e ++ "> mancante in fileDesc"

/-- Missing `title` error text. -/
def titleErrTxt : String := "Elemento <title> mancante in titleStmt"

/-- Missing `body` error text. -/
def bodyErrTxt : String := "Elemento <body> mancante in text"

/-- Success text of `validateTEI`. -/
def confTxt : String := "Il documento è conforme alle specifiche TEI"

/-- The structural walk of `validateTEI` in `tei-editor.tsx` (lines 96-191),
applied to the parsed document's `documentElement`.  Messages are produced in
the source's push order: root check (early return), namespace check,
`teiHeader` / `text` presence, the `teiHeader` block (`fileDesc`, then the
three required children of `fileDesc`, then `title` under the first
`titleStmt`), the `body` check under `text`, and finally the success message
when no error accumulated. -/
def validateTEIDoc (tei : XNode) : List VMsg :=
  if tei.name ≠ "TEI" then
    [⟨.error, rootErrTxt⟩]
  else
    let msgsNs : List VMsg :=
      if tei.ns ≠ some teiNS then [⟨.error, nsErrTxt⟩] else []
    let teiHeader := getFirst tei "teiHeader"
    let txt := getFirst tei "text"
    let msgsHdr : List VMsg :=
      match teiHeader with
      | none => [⟨.error, hdrErrTxt⟩]
      | some _ => []
    let msgsTxt : List VMsg :=
      match txt with
      | none => [⟨.error, textErrTxt⟩]
      | some _ => []
    let msgsHdrBlock : List VMsg :=
      match teiHeader with
      | none => []
      | some h =>
        match getFirst h "fileDesc" with
        | none => [⟨.error, fileDescErrTxt⟩]
        | some fd =>
          ((["titleStmt", "publicationStmt", "sourceDesc"].filter
              (fun e => !(hasTag fd e))).map
            (fun e => (⟨.error, inFileDescErrTxt e⟩ : VMsg))) ++
          (match getFirst fd "titleStmt" with
           | none => []
           | some ts => if !(hasTag ts "title") then [⟨.error, titleErrTxt⟩] else [])
    let msgsBody : List VMsg :=
      match txt with
      | none => []
      | some t => if !(hasTag t "body") then [⟨.error, bodyErrTxt⟩] else []
    let msgs := msgsNs ++ msgsHdr ++ msgsTxt ++ msgsHdrBlock ++ msgsBody
    if msgs.isEmpty then [⟨.success, confTxt⟩] else msgs

/-! ## Specification-side restatement of the required-element rules

`specMissingErrors` is written from the words of the spec / claims ("one
distinct error message naming each missing required element per the nesting
rules: `teiHeader` and `text` under the root; `fileDesc` under `teiHeader`
when `teiHeader` is present; `titleStmt`, `publicationStmt` and `sourceDesc`
under `fileDesc` when `fileDesc` is present; `title` under `titleStmt` when
`titleStmt` is present; and `body` under `text` when `text` is present"),
to be compared against the source-derived `validateTEIDoc`. -/

/-- One error message naming `tag`, when `parent` has no descendant named
`tag`; nothing otherwise. -/
def presenceErr (parent : XNode) (tag : String) (txt : String) : List VMsg :=
  if hasTag parent tag then [] else [⟨.error, txt⟩]

/-- The required children of `fileDesc` (when `fileDesc` is present): one
distinct message per missing one of `titleStmt`, `publicationStmt`,
`sourceDesc`, and `title` under the first `titleStmt` when it is present. -/
def fdChecks (fd : XNode) : List VMsg :=
  presenceErr fd "titleStmt" (inFileDescErrTxt "titleStmt") ++
  presenceErr fd "publicationStmt" (inFileDescErrTxt "publicationStmt") ++
  presenceErr fd "sourceDesc" (inFileDescErrTxt "sourceDesc") ++
  (match getFirst fd "titleStmt" with
   | none => []
   | some ts => presenceErr ts "title" titleErrTxt)

/-- When `teiHeader` is present: `fileDesc` must exist under it; when it
does, its own required children are checked. -/
def hdrBlock (tei : XNode) : List VMsg :=
  match getFirst tei "teiHeader" with
  | none => []
  | some h =>
    if hasTag h "fileDesc" then
      match getFirst h "fileDesc" with
      | none => []
      | some fd => fdChecks fd
    else [⟨.error, fileDescErrTxt⟩]

/-- When `text` is present, it must contain a `body`. -/
def bodyBlock (tei : XNode) : List VMsg :=
  match getFirst tei "text" with
  | none => []
  | some t => presenceErr t "body" bodyErrTxt

/-- The required-element errors per the nesting rules, from the spec's words. -/
def specMissingErrors (tei : XNode) : List VMsg :=
  presenceErr tei "teiHeader" hdrErrTxt ++
  presenceErr tei "text" textErrTxt ++
  hdrBlock tei ++
  bodyBlock tei

/-- The namespace check of the walk, as a message list. -/
def nsCheck (tei : XNode) : List VMsg :=
  if tei.ns ≠ some teiNS then [⟨.error, nsErrTxt⟩] else []

/-- All structural error messages of a run whose root check passed. -/
def structuralErrors (tei : XNode) : List VMsg :=
  nsCheck tei ++ specMissingErrors tei

/-- The set of all structural error messages the walk can produce after the
root check passed. -/
def errorPool : List VMsg :=
  [⟨.error, nsErrTxt⟩, ⟨.error, hdrErrTxt⟩, ⟨.error, textErrTxt⟩,
   ⟨.error, fileDescErrTxt⟩,
   ⟨.error, inFileDescErrTxt "titleStmt"⟩,
   ⟨.error, inFileDescErrTxt "publicationStmt"⟩,
   ⟨.error, inFileDescErrTxt "sourceDesc"⟩,
   ⟨.error, titleErrTxt⟩, ⟨.error, bodyErrTxt⟩]

/-! ## Concrete example documents -/

/-- Build a TEI-namespaced element with no attributes. -/
def tel (n : String) (ks : List XNode) : XNode := .elem n (some teiNS) [] ks

/-- A conforming document whose `teiHeader` is nested inside `text` rather
than being a direct child of the root (tree of
`<TEI><text><body/><teiHeader>…</teiHeader></text></TEI>`). -/
def nestedHeaderDoc : XNode :=
  tel "TEI"
    [tel "text"
      [tel "body" [],
       tel "teiHeader"
         [tel "fileDesc"
           [tel "titleStmt" [tel "title" []],
            tel "publicationStmt" [],
            tel "sourceDesc" []]]]]

/-- A document whose `fileDesc` contains two `titleStmt` elements: the first
has no `title`, the second one does. -/
def twinTitleStmtDoc : XNode :=
  tel "TEI"
    [tel "teiHeader"
      [tel "fileDesc"
        [tel "titleStmt" [],
         tel "titleStmt" [tel "title" []],
         tel "publicationStmt" [],
         tel "sourceDesc" []]],
     tel "text" [tel "body" []]]

/-- The document element of
`<t:TEI xmlns:t="http://www.tei-c.org/ns/1.0">…</t:TEI>`: a fully valid TEI
document whose root carries a namespace prefix, so its DOM `tagName` is
`"t:TEI"` while its local name is `"TEI"`. -/
def prefixedRoot : XNode :=
  XNode.elem "t:TEI" (some teiNS) [("xmlns:t", teiNS)]
    [XNode.elem "teiHeader" none []
      [XNode.elem "fileDesc" none []
        [XNode.elem "titleStmt" none [] [XNode.elem "title" none [] []],
         XNode.elem "publicationStmt" none [] [],
         XNode.elem "sourceDesc" none [] []]],
     XNode.elem "text" none [] [XNode.elem "body" none [] []]]

/-- A root element that is not named `TEI`. -/
def notTeiRoot : XNode := XNode.elem "NOTTEI" (some teiNS) [] []

/-- A `TEI` root with no namespace (and no content). -/
def noNsRoot : XNode := XNode.elem "TEI" none [] []

/-- A tiny well-formed TEI document (string form). -/
def teiSmallDoc : String :=
  "<TEI xmlns=\"http://www.tei-c.org/ns/1.0\"><teiHeader/><text/></TEI>"

/-- The canonical formatted form of `teiSmallDoc`. -/
def teiSmallFmt : String :=
  "<TEI xmlns=\"http://www.tei-c.org/ns/1.0\">\n<teiHeader/>\n<text/>\n</TEI>"

/-! ## Editor state and the history manager

`addToHistory`, `undo`, `redo` from the source (lines 45-66), modelled over
an explicit state record.  `historyRef.current[i]` out of bounds would be
`undefined` in JS; the model totalizes the lookup with `List.getD _ ""`,
which coincides with the source whenever the cursor invariant
`currentIndex < history.length` holds. -/

/-- The mutable state the editor component closes over: the document buffer,
the last validation messages, and the history log with its cursor. -/
structure EditorState where
  xmlContent : String
  validationMessages : List VMsg
  history : List String
  currentIndex : Nat

/-- `addToHistory(content)`: truncate the log to `[0..currentIndex]`, append
`content`, and point the cursor at the new last index. -/
def addToHistory (s : EditorState) (content : String) : EditorState :=
  let newHistory := s.history.take (s.currentIndex + 1) ++ [content]
  { s with history := newHistory, currentIndex := newHistory.length - 1 }

/-- `undo()`: when the cursor is positive, move it back one and display the
snapshot there; otherwise do nothing. -/
def undo (s : EditorState) : EditorState :=
  if 0 < s.currentIndex then
    { s with currentIndex := s.currentIndex - 1,
             xmlContent := s.history.getD (s.currentIndex - 1) "" }
  else s

/-- `redo()`: when the cursor is before the last index, move it forward one
and display the snapshot there; otherwise do nothing. -/
def redo (s : EditorState) : EditorState :=
  if s.currentIndex < s.history.length - 1 then
    { s with currentIndex := s.currentIndex + 1,
             xmlContent := s.history.getD (s.currentIndex + 1) "" }
  else s

/-- `handleContentChange`: set the buffer to the new content and record it
(`setXmlContent` followed by `addToHistory`). -/
def recordEdit (s : EditorState) (content : String) : EditorState :=
  addToHistory { s with xmlContent := content } content

/-- `n` consecutive `redo()` calls. -/
def redoN : Nat → EditorState → EditorState
  | 0, s => s
  | n + 1, s => redoN n (redo s)

/-- A fresh session state seeded with one snapshot `"x"`. -/
def histStartState : EditorState := ⟨"x", [], ["x"], 0⟩

/-- A state with two snapshots and the cursor on the second. -/
def undoWitnessState : EditorState := ⟨"b", [], ["a", "b"], 1⟩

/-- A state whose buffer holds malformed XML. -/
def malformedState : EditorState := ⟨"<TEI", [], ["<TEI"], 0⟩

/-! ## The canonical formatter's normalization pass

`formatXML` (source lines 193-225) re-serializes the parsed document and then
applies, in order: `\x28a\x29` the regex replace inserting a line break between every
adjacent `>`/`<` pair, `\x28b\x29` the regex replace collapsing whitespace runs inside
every single-line `<…>` match (JS `.` does not cross line breaks, and a lazy
match from a `<` fails only when no `>` occurs before the next line break),
and `\x28c\x29` split on line breaks, trim each line, and re-join. -/

/-- JS `\s` on the ASCII range (the model's whitespace set). -/
def jsWS (c : Char) : Bool :=
  c = ' ' || c = '\t' || c = '\n' || c = '\r' || c = '\x0b' || c = '\x0c'

/-- Step (a): `.replace(/(>)(<)(\/*)/g, "$1\n$2$3")` — insert a line break
between every adjacent close/open tag boundary, scanning left to right (the
captured run of slashes is re-emitted unchanged, so only the break matters). -/
def insertNL : List Char → List Char
  | [] => []
  | c :: rest =>
    if c = '>' then
      match rest with
      | [] => ['>']
      | d :: rest' =>
        if d = '<' then '>' :: '\n' :: '<' :: insertNL rest'
        else '>' :: insertNL (d :: rest')
    else c :: insertNL rest

/-- `.replace(/\s+/g, " ")`, as a one-pass scanner; the flag records whether
the scanner is inside a whitespace run (whose first character already emitted
the single `' '`). -/
def collapseWSAux : Bool → List Char → List Char
  | _, [] => []
  | inRun, c :: rest =>
    if jsWS c then
      if inRun then collapseWSAux true rest
      else ' ' :: collapseWSAux true rest
    else c :: collapseWSAux false rest

/-- `.replace(/\s+/g, " ")`: collapse every whitespace run to one space. -/
def collapseWS (cs : List Char) : List Char := collapseWSAux false cs

/-- Step (b) as a one-pass scanner.  `none` is free mode; `some racc` means
the scanner is inside a candidate `<…>` match whose content so far is
`racc.reverse` (the lazy `<(.*?)>` match: content may contain `<`; the match
succeeds at the first `>` and is abandoned — emitted verbatim — at a line
break or at the end of input, where no later `<` before that boundary could
match either). -/
def collapseTagsAux : Option (List Char) → List Char → List Char
  | none, [] => []
  | some racc, [] => '<' :: racc.reverse
  | none, c :: rest =>
    if c = '<' then collapseTagsAux (some []) rest
    else c :: collapseTagsAux none rest
  | some racc, c :: rest =>
    if c = '>' then '<' :: (collapseWS racc.reverse ++ '>' :: collapseTagsAux none rest)
    else if c = '\n' then '<' :: (racc.reverse ++ '\n' :: collapseTagsAux none rest)
    else collapseTagsAux (some (c :: racc)) rest

/-- Step (b): `.replace(/<(.*?)>/g, m => m.replace(/\s+/g, " "))` — collapse
whitespace inside every single-line `<…>` match. -/
def collapseTags (cs : List Char) : List Char := collapseTagsAux none cs

/-- An adjacent pair is acceptable to step (a) when it is not a close/open
tag boundary: step (a)'s output never contains `>` directly followed by `<`. -/
def okPair (a b : Char) : Prop := ¬(a = '>' ∧ b = '<')

/-- Fixed-point predicate of the step-(b) scanner: every single-line `<…>`
match already has collapsed whitespace.  Mirrors `collapseTagsAux`. -/
def ctFixedAux : Option (List Char) → List Char → Bool
  | none, [] => true
  | some _, [] => true
  | none, c :: rest =>
    if c = '<' then ctFixedAux (some []) rest else ctFixedAux none rest
  | some racc, c :: rest =>
    if c = '>' then (collapseWS racc.reverse == racc.reverse) && ctFixedAux none rest
    else if c = '\n' then ctFixedAux none rest
    else ctFixedAux (some (c :: racc)) rest

/-- Right trim: drop trailing whitespace. -/
def rtws : List Char → List Char
  | [] => []
  | c :: t =>
    let t' := rtws t
    if t'.isEmpty && jsWS c then [] else c :: t'

/-- JS `String.trim()` on a single line. -/
def trimLine (l : List Char) : List Char := rtws (l.dropWhile jsWS)

/-- JS `split("\n")`. -/
def splitNL : List Char → List (List Char)
  | [] => [[]]
  | c :: rest =>
    if c = '\n' then [] :: splitNL rest
    else
      match splitNL rest with
      | [] => [[c]]
      | l :: ls => (c :: l) :: ls

/-- JS `join("\n")`. -/
def joinNL : List (List Char) → List Char
  | [] => []
  | [l] => l
  | l :: ls => l ++ '\n' :: joinNL ls

/-- The whole normalization pass of `formatXML`, steps (a)-(c), over the
character list of the serialized document. -/
def pipelineC (cs : List Char) : List Char :=
  joinNL ((splitNL (collapseTags (insertNL cs))).map trimLine)

/-- The normalization pass as a string transformation. -/
def formatNormalize (s : String) : String := String.mk (pipelineC s.data)

/-! ## Parser adapter and serializer (platform code, modelled from the spec)

The repository calls the browser's `DOMParser` and `XMLSerializer`, which are
not part of its sources.  Modelled from the spec: a strict, namespace-aware
XML well-formedness parser producing a fresh tree (or failing on any
malformed input), and a deterministic serializer. -/

/-- XML whitespace. -/
def xmlWS (c : Char) : Bool := c = ' ' || c = '\t' || c = '\n' || c = '\r'

/-- Characters allowed inside a name (ASCII model). -/
def isNameChar (c : Char) : Bool :=
  c.isAlpha || c.isDigit || c = '_' || c = '-' || c = '.' || c = ':'

/-- Characters allowed to start a name. -/
def isNameStart (c : Char) : Bool := c.isAlpha || c = '_'

/-- Read a name from the head of the input. -/
def takeName (cs : List Char) : Option (String × List Char) :=
  match cs with
  | [] => none
  | c :: _ =>
    if isNameStart c then
      let nm := cs.takeWhile isNameChar
      some (String.mk nm, cs.drop nm.length)
    else none

/-- Scan character data up to the next `<` (or the end), decoding the five
predefined entity references; any bare or unknown `&…` is a well-formedness
failure. -/
def scanText : List Char → Option (List Char × List Char)
  | [] => some ([], [])
  | '<' :: rest => some ([], '<' :: rest)
  | '&' :: 'a' :: 'm' :: 'p' :: ';' :: rest =>
    (scanText rest).map (fun p => ('&' :: p.1, p.2))
  | '&' :: 'l' :: 't' :: ';' :: rest =>
    (scanText rest).map (fun p => ('<' :: p.1, p.2))
  | '&' :: 'g' :: 't' :: ';' :: rest =>
    (scanText rest).map (fun p => ('>' :: p.1, p.2))
  | '&' :: 'q' :: 'u' :: 'o' :: 't' :: ';' :: rest =>
    (scanText rest).map (fun p => ('"' :: p.1, p.2))
  | '&' :: 'a' :: 'p' :: 'o' :: 's' :: ';' :: rest =>
    (scanText rest).map (fun p => ('\x27' :: p.1, p.2))
  | '&' :: _ => none
  | c :: rest => (scanText rest).map (fun p => (c :: p.1, p.2))

/-- Scan an attribute value up to the closing quote `q`, decoding the five
predefined entities; a raw `<` or a bare `&` is a well-formedness failure. -/
def scanAttrValue (q : Char) : List Char → Option (List Char × List Char)
  | [] => none
  | '&' :: 'a' :: 'm' :: 'p' :: ';' :: rest =>
    (scanAttrValue q rest).map (fun p => ('&' :: p.1, p.2))
  | '&' :: 'l' :: 't' :: ';' :: rest =>
    (scanAttrValue q rest).map (fun p => ('<' :: p.1, p.2))
  | '&' :: 'g' :: 't' :: ';' :: rest =>
    (scanAttrValue q rest).map (fun p => ('>' :: p.1, p.2))
  | '&' :: 'q' :: 'u' :: 'o' :: 't' :: ';' :: rest =>
    (scanAttrValue q rest).map (fun p => ('"' :: p.1, p.2))
  | '&' :: 'a' :: 'p' :: 'o' :: 's' :: ';' :: rest =>
    (scanAttrValue q rest).map (fun p => ('\x27' :: p.1, p.2))
  | '&' :: _ => none
  | c :: rest =>
    if c = q then some ([], rest)
    else if c = '<' then none
    else (scanAttrValue q rest).map (fun p => (c :: p.1, p.2))

/-- Parse the attribute list of a start tag, rejecting duplicated attribute
names; stops before `/` or `>`. -/
def parseAttrs : Nat → List Char → Option (List (String × String) × List Char)
  | 0, _ => none
  | fuel + 1, cs =>
    let cs1 := cs.dropWhile xmlWS
    match cs1 with
    | '/' :: _ => some ([], cs1)
    | '>' :: _ => some ([], cs1)
    | _ =>
      match takeName cs1 with
      | none => none
      | some (nm, cs2) =>
        match cs2.dropWhile xmlWS with
        | '=' :: cs3 =>
          match cs3.dropWhile xmlWS with
          | '"' :: cs4 =>
            match scanAttrValue '"' cs4 with
            | none => none
            | some (v, cs5) =>
              match parseAttrs fuel cs5 with
              | none => none
              | some (attrs, cs6) =>
                if attrs.any (fun a => a.1 = nm) then none
                else some ((nm, String.mk v) :: attrs, cs6)
          | '\x27' :: cs4 =>
            match scanAttrValue '\x27' cs4 with
            | none => none
            | some (v, cs5) =>
              match parseAttrs fuel cs5 with
              | none => none
              | some (attrs, cs6) =>
                if attrs.any (fun a => a.1 = nm) then none
                else some ((nm, String.mk v) :: attrs, cs6)
          | _ => none
        | _ => none

/-- Record the `xmlns` / `xmlns:p` declarations of a start tag in the
namespace environment (innermost first). -/
def extendEnv (env : List (String × String))
    (attrs : List (String × String)) : List (String × String) :=
  attrs.foldl
    (fun e a =>
      if a.1 = "xmlns" then ("", a.2) :: e
      else if a.1.data.take 6 = ['x', 'm', 'l', 'n', 's', ':'] then
        (String.mk (a.1.data.drop 6), a.2) :: e
      else e)
    env

/-- Innermost binding of a prefix. -/
def nsLookup (env : List (String × String)) (p : String) : Option String :=
  (env.find? (fun kv => kv.1 == p)).map (fun kv => kv.2)

/-- Split a character list at every `:`. -/
def splitColon : List Char → List (List Char)
  | [] => [[]]
  | c :: rest =>
    if c = ':' then [] :: splitColon rest
    else
      match splitColon rest with
      | [] => [[c]]
      | l :: ls => (c :: l) :: ls

/-- Resolve a qualified name against the environment; `none` means a
namespace well-formedness failure (unbound prefix or malformed name), and
`some u` is the resolved `namespaceURI`. -/
def resolveNS (env : List (String × String)) (nm : String) :
    Option (Option String) :=
  match splitColon nm.data with
  | [_] =>
    match nsLookup env "" with
    | some u => if u = "" then some none else some (some u)
    | none => some none
  | [p, l] =>
    if p.isEmpty || l.isEmpty then none
    else if p = ['x', 'm', 'l'] then
      some (some "http://www.w3.org/XML/1998/namespace")
    else
      match nsLookup env (String.mk p) with
      | some u => if u = "" then none else some (some u)
      | none => none
  | _ => none

/-- Skip the rest of a comment (input starts after `<!--`). -/
def skipComment : List Char → Option (List Char)
  | '-' :: '-' :: '>' :: rest => some rest
  | _ :: rest => skipComment rest
  | [] => none

/-- Skip the rest of a processing instruction (input starts after `<?`). -/
def skipPI : List Char → Option (List Char)
  | '?' :: '>' :: rest => some rest
  | _ :: rest => skipPI rest
  | [] => none

/-- Skip whitespace, comments and processing instructions (prolog / between
root-level constructs). -/
def skipMisc : Nat → List Char → Option (List Char)
  | 0, _ => none
  | fuel + 1, cs =>
    let cs1 := cs.dropWhile xmlWS
    match cs1 with
    | '<' :: '!' :: '-' :: '-' :: rest =>
      match skipComment rest with
      | some rest2 => skipMisc fuel rest2
      | none => none
    | '<' :: '?' :: rest =>
      match skipPI rest with
      | some rest2 => skipMisc fuel rest2
      | none => none
    | _ => some cs1

mutual

/-- Parse one element (input starts at its `<`). -/
def parseNode : Nat → List (String × String) → List Char →
    Option (XNode × List Char)
  | 0, _, _ => none
  | fuel + 1, env, cs =>
    match cs with
    | '<' :: cs1 =>
      match takeName cs1 with
      | none => none
      | some (nm, cs2) =>
        match parseAttrs (cs2.length + 1) cs2 with
        | none => none
        | some (attrs, cs3) =>
          let env' := extendEnv env attrs
          match resolveNS env' nm with
          | none => none
          | some ns =>
            match cs3 with
            | '/' :: '>' :: cs4 => some (.elem nm ns attrs [], cs4)
            | '>' :: cs4 =>
              match parseKids fuel env' cs4 with
              | none => none
              | some (ks, cs5) =>
                match takeName cs5 with
                | none => none
                | some (nm2, cs6) =>
                  if nm2 = nm then
                    match cs6.dropWhile xmlWS with
                    | '>' :: cs7 => some (.elem nm ns attrs ks, cs7)
                    | _ => none
                  else none
            | _ => none
    | _ => none

/-- Parse a run of child nodes up to (and consuming) the `</` of the
enclosing close tag. -/
def parseKids : Nat → List (String × String) → List Char →
    Option (List XNode × List Char)
  | 0, _, _ => none
  | fuel + 1, env, cs =>
    match cs with
    | [] => none
    | '<' :: '/' :: rest => some ([], rest)
    | '<' :: '!' :: '-' :: '-' :: rest =>
      match skipComment rest with
      | none => none
      | some rest2 => parseKids fuel env rest2
    | '<' :: '?' :: rest =>
      match skipPI rest with
      | none => none
      | some rest2 => parseKids fuel env rest2
    | '<' :: _ =>
      match parseNode fuel env cs with
      | none => none
      | some (n, cs2) =>
        match parseKids fuel env cs2 with
        | none => none
        | some (ks, cs3) => some (n :: ks, cs3)
    | _ =>
      match scanText cs with
      | none => none
      | some (txt, cs2) =>
        match parseKids fuel env cs2 with
        | none => none
        | some (ks, cs3) => some (XNode.text (String.mk txt) :: ks, cs3)

end

/-- Modelled from the spec: the Parser Adapter wraps a strict XML
well-formedness parse of the whole document — optional prolog, exactly one
root element, optional trailing misc; `none` on any malformed input. -/
def parseDocument (x : String) : Option XNode :=
  let cs := x.data
  match skipMisc (cs.length + 1) cs with
  | none => none
  | some cs1 =>
    match parseNode (2 * cs.length + 4) [] cs1 with
    | none => none
    | some (root, rest) =>
      match skipMisc (rest.length + 1) rest with
      | none => none
      | some rest2 => if rest2.isEmpty then some root else none

/-- Escape character data for serialization. -/
def escTextC : List Char → List Char
  | [] => []
  | '&' :: r => '&' :: 'a' :: 'm' :: 'p' :: ';' :: escTextC r
  | '<' :: r => '&' :: 'l' :: 't' :: ';' :: escTextC r
  | '>' :: r => '&' :: 'g' :: 't' :: ';' :: escTextC r
  | c :: r => c :: escTextC r

/-- Escape an attribute value for serialization. -/
def escAttrC : List Char → List Char
  | [] => []
  | '&' :: r => '&' :: 'a' :: 'm' :: 'p' :: ';' :: escAttrC r
  | '<' :: r => '&' :: 'l' :: 't' :: ';' :: escAttrC r
  | '>' :: r => '&' :: 'g' :: 't' :: ';' :: escAttrC r
  | '"' :: r => '&' :: 'q' :: 'u' :: 'o' :: 't' :: ';' :: escAttrC r
  | c :: r => c :: escAttrC r

/-- Serialize an attribute list. -/
def serializeAttrs : List (String × String) → String
  | [] => ""
  | a :: rest =>
    " " ++ a.1 ++ "=\"" ++ String.mk (escAttrC a.2.data) ++ "\"" ++
      serializeAttrs rest

mutual

/-- Modelled from the spec: `XMLSerializer.serializeToString` — deterministic
re-serialization of the tree (childless elements self-close). -/
def serializeNode : XNode → String
  | .text s => String.mk (escTextC s.data)
  | .elem nm _ attrs ks =>
    "<" ++ nm ++ serializeAttrs attrs ++
      (if ks.isEmpty then "/>"
       else ">" ++ serializeKids ks ++ "</" ++ nm ++ ">")

/-- Serialize a child list in order. -/
def serializeKids : List XNode → String
  | [] => ""
  | k :: ks => serializeNode k ++ serializeKids ks

end

/-- The namespace of the `parsererror` document per the DOM standard. -/
def parsererrorNS : String := "http://www.mozilla.org/newlayout/xml/parsererror.xml"

/-- Modelled from the spec: `DOMParser.parseFromString` never throws; on
malformed input it returns an error document whose document element is a
`parsererror` element carrying the parser's diagnostic text. -/
def parsererrorElem : XNode :=
  .elem "parsererror" (some parsererrorNS) [] [.text "XML parse error"]

/-- The `documentElement` the source code sees after `parseFromString`. -/
def domDoc (x : String) : XNode :=
  match parseDocument x with
  | some root => root
  | none => parsererrorElem

/-- All elements of the parsed document (the search space of
`xmlDoc.getElementsByTagName`, which includes the document element). -/
def docElems (x : String) : List XNode :=
  domDoc x :: (domDoc x).descendants

/-- `xmlDoc.getElementsByTagName("parsererror").length > 0`. -/
def docContainsParserError (x : String) : Bool :=
  (docElems x).any (fun n => n.isElem && n.name == "parsererror")

/-- `validateTEI` on the current buffer text: parse (never throwing), then
run the structural walk on the document element. -/
def validateTEI (x : String) : List VMsg := validateTEIDoc (domDoc x)

/-- Parse `x` and re-serialize it, unless the parsed document contains a
`parsererror` element. -/
def domSerialize (x : String) : Option String :=
  if docContainsParserError x then none else some (serializeNode (domDoc x))

/-- The string produced by a successful `formatXML` run on buffer text `x`
(`none` when the run throws the syntax-error message instead). -/
def formatResult (x : String) : Option String :=
  (domSerialize x).map formatNormalize

/-- The error message `formatXML` throws on malformed input. -/
def fmtErrTxt : String := "Correggi prima gli errori di sintassi XML"

/-- The success message of `formatXML`. -/
def fmtOkTxt : String := "Documento formattato correttamente"

/-- `formatXML` as a state transformer (source lines 193-225): on a document
containing a `parsererror`, only the validation messages change; otherwise the
buffer is replaced by the normalized serialization, the result is recorded in
history, and a success message is emitted. -/
def formatXMLop (s : EditorState) : EditorState :=
  if docContainsParserError s.xmlContent then
    { s with validationMessages := [⟨.error, fmtErrTxt⟩] }
  else
    let formatted := formatNormalize (serializeNode (domDoc s.xmlContent))
    let s1 := addToHistory { s with xmlContent := formatted } formatted
    { s1 with validationMessages := [⟨.success, fmtOkTxt⟩] }

/-- Master shape lemma: the source walk equals root-check, then the
spec-side structural errors, then the success aggregation. -/
theorem validateTEIDoc_eq_structural (tei : XNode) :
    validateTEIDoc tei =
      if tei.name = "TEI" then
        (if (structuralErrors tei).isEmpty then [⟨.success, confTxt⟩]
         else structuralErrors tei)
      else [⟨.error, rootErrTxt⟩] := by
  by_cases hroot : tei.name = "TEI"
  · simp only [validateTEIDoc, structuralErrors, specMissingErrors, nsCheck,
      hdrBlock, bodyBlock, fdChecks,
      hroot, ne_eq, not_true_eq_false, if_false, if_true]
    rcases hth : getFirst tei "teiHeader" with _ | th
    · rcases htx : getFirst tei "text" with _ | tx
      · simp [presenceErr, hasTag, hth, htx]
      · cases hbody : (getFirst tx "body").isSome <;>
          simp [presenceErr, hasTag, hth, htx, hbody, List.append_assoc]
    · rcases htx : getFirst tei "text" with _ | tx
      · rcases hfd : getFirst th "fileDesc" with _ | fd
        · simp [presenceErr, hasTag, hth, htx, hfd]
        · rcases hts : getFirst fd "titleStmt" with _ | ts
          · cases hpub : (getFirst fd "publicationStmt").isSome <;>
              cases hsrc : (getFirst fd "sourceDesc").isSome <;>
              simp [presenceErr, hasTag, hth, htx, hfd, hts, hpub, hsrc,
                List.filter, List.append_assoc]
          · cases htitle : (getFirst ts "title").isSome <;>
              cases hpub : (getFirst fd "publicationStmt").isSome <;>
              cases hsrc : (getFirst fd "sourceDesc").isSome <;>
              simp [presenceErr, hasTag, hth, htx, hfd, hts, htitle, hpub, hsrc,
                List.filter, List.append_assoc]
      · rcases hfd : getFirst th "fileDesc" with _ | fd
        · cases hbody : (getFirst tx "body").isSome <;>
            simp [presenceErr, hasTag, hth, htx, hfd, hbody, List.append_assoc]
        · rcases hts : getFirst fd "titleStmt" with _ | ts
          · cases hpub : (getFirst fd "publicationStmt").isSome <;>
              cases hsrc : (getFirst fd "sourceDesc").isSome <;>
              cases hbody : (getFirst tx "body").isSome <;>
              simp [presenceErr, hasTag, hth, htx, hfd, hts, hpub, hsrc, hbody,
                List.filter, List.append_assoc]
          · cases htitle : (getFirst ts "title").isSome <;>
              cases hpub : (getFirst fd "publicationStmt").isSome <;>
              cases hsrc : (getFirst fd "sourceDesc").isSome <;>
              cases hbody : (getFirst tx "body").isSome <;>
              simp [presenceErr, hasTag, hth, htx, hfd, hts, htitle, hpub, hsrc,
                hbody, List.filter, List.append_assoc]
  · simp [validateTEIDoc, hroot]

/-! ## Message pools and basic structure of the error lists -/

theorem mem_presenceErr {p : XNode} {t txt : String} {m : VMsg}
    (h : m ∈ presenceErr p t txt) : m = ⟨.error, txt⟩ := by
  unfold presenceErr at h
  split at h <;> simp_all

theorem presenceErr_nodup (p : XNode) (t txt : String) :
    (presenceErr p t txt).Nodup := by
  unfold presenceErr
  split <;> simp

theorem mem_nsCheck {tei : XNode} {m : VMsg} (h : m ∈ nsCheck tei) :
    m = ⟨.error, nsErrTxt⟩ := by
  unfold nsCheck at h
  split at h <;> simp_all

theorem mem_fdChecks {fd : XNode} {m : VMsg} (h : m ∈ fdChecks fd) :
    m = ⟨.error, inFileDescErrTxt "titleStmt"⟩ ∨
    m = ⟨.error, inFileDescErrTxt "publicationStmt"⟩ ∨
    m = ⟨.error, inFileDescErrTxt "sourceDesc"⟩ ∨
    m = ⟨.error, titleErrTxt⟩ := by
  unfold fdChecks at h
  simp only [List.mem_append, or_assoc] at h
  rcases h with h | h | h | h
  · exact Or.inl (mem_presenceErr h)
  · exact Or.inr (Or.inl (mem_presenceErr h))
  · exact Or.inr (Or.inr (Or.inl (mem_presenceErr h)))
  · split at h
    · simp at h
    · exact Or.inr (Or.inr (Or.inr (mem_presenceErr h)))

theorem mem_hdrBlock {tei : XNode} {m : VMsg} (h : m ∈ hdrBlock tei) :
    m = ⟨.error, fileDescErrTxt⟩ ∨
    m = ⟨.error, inFileDescErrTxt "titleStmt"⟩ ∨
    m = ⟨.error, inFileDescErrTxt "publicationStmt"⟩ ∨
    m = ⟨.error, inFileDescErrTxt "sourceDesc"⟩ ∨
    m = ⟨.error, titleErrTxt⟩ := by
  unfold hdrBlock at h
  split at h
  · simp at h
  · split at h
    · split at h
      · simp at h
      · exact Or.inr (mem_fdChecks h)
    · simp at h
      exact Or.inl h

theorem mem_bodyBlock {tei : XNode} {m : VMsg} (h : m ∈ bodyBlock tei) :
    m = ⟨.error, bodyErrTxt⟩ := by
  unfold bodyBlock at h
  split at h
  · simp at h
  · exact mem_presenceErr h

theorem mem_structuralErrors {tei : XNode} {m : VMsg}
    (h : m ∈ structuralErrors tei) : m ∈ errorPool := by
  unfold structuralErrors specMissingErrors at h
  simp only [List.mem_append, or_assoc] at h
  rcases h with h | h | h | h | h
  · rw [mem_nsCheck h]; decide
  · rw [mem_presenceErr h]; decide
  · rw [mem_presenceErr h]; decide
  · rcases mem_hdrBlock h with rfl | rfl | rfl | rfl | rfl <;> decide
  · rw [mem_bodyBlock h]; decide

theorem structuralErrors_all_error {tei : XNode} {m : VMsg}
    (h : m ∈ structuralErrors tei) : m.type = .error := by
  have := mem_structuralErrors h
  unfold errorPool at this
  simp at this
  rcases this with rfl | rfl | rfl | rfl | rfl | rfl | rfl | rfl | rfl <;> rfl

theorem rootMsg_not_mem_structuralErrors {tei : XNode} :
    (⟨.error, rootErrTxt⟩ : VMsg) ∉ structuralErrors tei := by
  intro h
  have := mem_structuralErrors h
  revert this
  decide

/-- Distinctness: across the blocks of `specMissingErrors`, the candidate
message pools are disjoint, and within each block every message can occur at
most once. -/
theorem fdChecks_nodup (fd : XNode) : (fdChecks fd).Nodup := by
  unfold fdChecks
  refine List.Nodup.append ?_ ?_ ?_
  · refine List.Nodup.append ?_ ?_ ?_
    · refine List.Nodup.append (presenceErr_nodup _ _ _) (presenceErr_nodup _ _ _) ?_
      intro a ha hb
      rw [mem_presenceErr ha] at hb
      have := mem_presenceErr hb
      simp [inFileDescErrTxt] at this
    · exact presenceErr_nodup _ _ _
    · intro a ha hb
      have hb' := mem_presenceErr hb
      simp only [List.mem_append] at ha
      rcases ha with ha | ha <;> rw [mem_presenceErr ha] at hb' <;>
        simp [inFileDescErrTxt] at hb'
  · split
    · simp
    · exact presenceErr_nodup _ _ _
  · intro a ha hb
    have ha' : a = (⟨.error, inFileDescErrTxt "titleStmt"⟩ : VMsg) ∨
        a = ⟨.error, inFileDescErrTxt "publicationStmt"⟩ ∨
        a = ⟨.error, inFileDescErrTxt "sourceDesc"⟩ := by
      simp only [List.mem_append] at ha
      rcases ha with (ha | ha) | ha
      · exact Or.inl (mem_presenceErr ha)
      · exact Or.inr (Or.inl (mem_presenceErr ha))
      · exact Or.inr (Or.inr (mem_presenceErr ha))
    have hb' : a = (⟨.error, titleErrTxt⟩ : VMsg) := by
      split at hb
      · simp at hb
      · exact mem_presenceErr hb
    rcases ha' with rfl | rfl | rfl <;> simp [inFileDescErrTxt, titleErrTxt] at hb'

theorem hdrBlock_nodup (tei : XNode) : (hdrBlock tei).Nodup := by
  unfold hdrBlock
  split
  · simp
  · split
    · split
      · simp
      · exact fdChecks_nodup _
    · simp

theorem bodyBlock_nodup (tei : XNode) : (bodyBlock tei).Nodup := by
  unfold bodyBlock
  split
  · simp
  · exact presenceErr_nodup _ _ _

theorem specMissingErrors_nodup (tei : XNode) : (specMissingErrors tei).Nodup := by
  unfold specMissingErrors
  refine List.Nodup.append ?_ ?_ ?_
  · refine List.Nodup.append ?_ ?_ ?_
    · refine List.Nodup.append (presenceErr_nodup _ _ _) (presenceErr_nodup _ _ _) ?_
      intro a ha hb
      rw [mem_presenceErr ha] at hb
      have := mem_presenceErr hb
      simp [hdrErrTxt, textErrTxt] at this
    · exact hdrBlock_nodup _
    · intro a ha hb
      simp only [List.mem_append] at ha
      have hb' := mem_hdrBlock hb
      rcases ha with ha | ha <;> rw [mem_presenceErr ha] at hb' <;>
        revert hb' <;> decide
  · exact bodyBlock_nodup tei
  · intro a ha hb
    have hb' := mem_bodyBlock hb
    simp only [List.mem_append] at ha
    rcases ha with (ha | ha) | ha
    · rw [mem_presenceErr ha] at hb'; revert hb'; decide
    · rw [mem_presenceErr ha] at hb'; revert hb'; decide
    · have := mem_hdrBlock ha
      rcases this with rfl | rfl | rfl | rfl | rfl <;> revert hb' <;> decide

/-- Shared: success/error purity of the structural walk, over any document
element. -/
theorem validateTEIDoc_purity (tei : XNode) :
    ((∃ m ∈ validateTEIDoc tei, m.type = .success) ↔
      ∀ m ∈ validateTEIDoc tei, m.type ≠ .error) ∧
    ((∀ m ∈ validateTEIDoc tei, m.type ≠ .error) →
      validateTEIDoc tei = [⟨.success, confTxt⟩]) ∧
    ((∃ m ∈ validateTEIDoc tei, m.type = .error) →
      (∀ m ∈ validateTEIDoc tei, m.type = .error) ∧ validateTEIDoc tei ≠ []) := by
  by_cases hroot : tei.name = "TEI"
  · by_cases he : (structuralErrors tei).isEmpty
    · have hV : validateTEIDoc tei = [⟨.success, confTxt⟩] := by
        rw [validateTEIDoc_eq_structural, if_pos hroot, if_pos he]
      rw [hV]
      refine ⟨by simp, fun _ => rfl, by simp⟩
    · have hV : validateTEIDoc tei = structuralErrors tei := by
        rw [validateTEIDoc_eq_structural, if_pos hroot, if_neg he]
      rw [hV]
      have hne : structuralErrors tei ≠ [] := by
        intro hnil
        rw [hnil] at he
        simp at he
      obtain ⟨m0, hm0⟩ := List.exists_mem_of_ne_nil _ hne
      have hm0e := structuralErrors_all_error hm0
      refine ⟨?_, ?_, ?_⟩
      · constructor
        · rintro ⟨m, hm, hms⟩
          have hme := structuralErrors_all_error hm
          rw [hme] at hms
          simp at hms
        · intro hall
          exact absurd hm0e (hall m0 hm0)
      · intro hall
        exact absurd hm0e (hall m0 hm0)
      · intro _
        exact ⟨fun m hm => structuralErrors_all_error hm, hne⟩
  · have hV : validateTEIDoc tei = [⟨.error, rootErrTxt⟩] := by
      rw [validateTEIDoc_eq_structural, if_neg hroot]
    rw [hV]
    refine ⟨by simp, ?_, by simp⟩
    intro hall
    have := hall ⟨.error, rootErrTxt⟩ (List.mem_singleton_self _)
    simp at this

/-! ## Shared lemmas about the history manager -/

theorem recordEdit_history (s : EditorState) (v : String) :
    (recordEdit s v).history = s.history.take (s.currentIndex + 1) ++ [v] := by
  simp [recordEdit, addToHistory]

theorem recordEdit_currentIndex (s : EditorState) (v : String) :
    (recordEdit s v).currentIndex = (s.history.take (s.currentIndex + 1)).length := by
  simp [recordEdit, addToHistory]

theorem recordEdit_xmlContent (s : EditorState) (v : String) :
    (recordEdit s v).xmlContent = v := by
  simp [recordEdit, addToHistory]

theorem undo_keeps_history (s : EditorState) : (undo s).history = s.history := by
  unfold undo
  split <;> rfl

theorem redo_keeps_history (s : EditorState) : (redo s).history = s.history := by
  unfold redo
  split <;> rfl

theorem undo_fields_pos (s : EditorState) (h : 0 < s.currentIndex) :
    (undo s).currentIndex = s.currentIndex - 1 ∧
    (undo s).xmlContent = s.history.getD (s.currentIndex - 1) "" := by
  unfold undo
  rw [if_pos h]
  exact ⟨rfl, rfl⟩

theorem redo_xmlContent_ne {s : EditorState} {b : String}
    (hh : b ∉ s.history) (hx : s.xmlContent ≠ b) : (redo s).xmlContent ≠ b := by
  unfold redo
  split
  · rename_i hlt
    intro hEq
    apply hh
    rw [← hEq]
    simp only
    have hb : s.currentIndex + 1 < s.history.length := by omega
    rw [List.getD_eq_getElem _ _ hb]
    exact List.getElem_mem _
  · exact hx

theorem redoN_frame {b : String} :
    ∀ (n : Nat) (s : EditorState), b ∉ s.history → s.xmlContent ≠ b →
      (redoN n s).history = s.history ∧ (redoN n s).xmlContent ≠ b := by
  intro n
  induction n with
  | zero => intro s hh hx; exact ⟨rfl, hx⟩
  | succ n ih =>
    intro s hh hx
    have h1 := redo_keeps_history s
    have h2 := redo_xmlContent_ne hh hx
    have h3 := ih (redo s) (by rw [h1]; exact hh) h2
    exact ⟨h3.1.trans h1, h3.2⟩

/-! ## Claim C1 — validator behavior on inputs whose parse fails -/

/-- C1 (counterexample): on the malformed input `"<TEI"` the parse fails,
yet `validateTEI` returns the root-element error — a structural (root) check
message, not `"profile validation error: "` plus the parser diagnostic.  The
source's `validateTEI` never consults `parsererror` and `parseFromString`
never throws, so the catch-branch message is unreachable; the error document's
root is named `parsererror`, which fails the `tagName !== 'TEI'` test. -/
theorem validateTEI_parse_failure_cex :
    (parseDocument "<TEI").isNone = true ∧
    validateTEI "<TEI" = [⟨.error, rootErrTxt⟩] := by
  refine ⟨by decide, by decide⟩

/-- C1 (amended): for every input whose XML parse fails, `validateTEI`
returns exactly one error message, namely the root-element error (the parser
error document's root is named `parsererror`, not `TEI`); no namespace or
required-element error is emitted, and no parse-diagnostic message is
produced. -/
theorem validateTEI_parse_failure (x : String)
    (h : (parseDocument x).isNone = true) :
    validateTEI x = [⟨.error, rootErrTxt⟩] := by
  unfold validateTEI domDoc
  rcases hp : parseDocument x with _ | r
  · simp only
    decide
  · rw [hp] at h
    simp at h

theorem validateTEI_parse_failure_witness :
    (parseDocument "<a><b></a>").isNone = true ∧
    validateTEI "<a><b></a>" = [⟨.error, rootErrTxt⟩] :=
  ⟨by decide, validateTEI_parse_failure "<a><b></a>" (by decide)⟩

/-! ## Claim C2 — the root check -/

/-- C2 (counterexample): the document element of
`<t:TEI xmlns:t="http://www.tei-c.org/ns/1.0">…</t:TEI>` has local name
`TEI`, yet `validateTEI` flags the root error, because the source compares
the qualified `tagName` (here `"t:TEI"`), not the local name. -/
theorem validateTEI_root_localName_cex :
    XNode.localName prefixedRoot = "TEI" ∧
    validateTEIDoc prefixedRoot = [⟨.error, rootErrTxt⟩] := by
  refine ⟨by decide, by decide⟩

/-- C2 (amended): `validateTEI` flags the root error exactly when the
document element's qualified `tagName` differs from `"TEI"`, and whenever it
does, the result is exactly that one error message and nothing else. -/
theorem validateTEI_root_check (tei : XNode) :
    ((⟨.error, rootErrTxt⟩ : VMsg) ∈ validateTEIDoc tei ↔ tei.name ≠ "TEI") ∧
    (tei.name ≠ "TEI" → validateTEIDoc tei = [⟨.error, rootErrTxt⟩]) := by
  by_cases hroot : tei.name = "TEI"
  · constructor
    · rw [validateTEIDoc_eq_structural, if_pos hroot]
      constructor
      · intro hmem
        split at hmem
        · rcases List.mem_singleton.mp hmem with h
          exact absurd (congrArg VMsg.type h) (by decide)
        · exact absurd hmem rootMsg_not_mem_structuralErrors
      · intro hne
        exact absurd hroot hne
    · intro hne
      exact absurd hroot hne
  · have hV : validateTEIDoc tei = [⟨.error, rootErrTxt⟩] := by
      rw [validateTEIDoc_eq_structural, if_neg hroot]
    rw [hV]
    exact ⟨⟨fun _ => hroot, fun _ => List.mem_singleton_self _⟩, fun _ => rfl⟩

theorem validateTEI_root_check_witness :
    notTeiRoot.name ≠ "TEI" ∧
    validateTEIDoc notTeiRoot = [⟨.error, rootErrTxt⟩] :=
  ⟨by decide, (validateTEI_root_check notTeiRoot).2 (by decide)⟩

/-! ## Claim C3 — one distinct error per missing required element -/

/-- C3: for a well-formed document whose root is `TEI`, the walk produces
exactly the namespace check followed by the spec's per-rule missing-element
errors (`specMissingErrors`, one distinct error-typed message per missing
required element per the nesting rules), aggregated with the success message
when nothing is missing. -/
theorem validateTEI_required_elements (tei : XNode) (hroot : tei.name = "TEI") :
    validateTEIDoc tei =
      (if (structuralErrors tei).isEmpty then [⟨.success, confTxt⟩]
       else structuralErrors tei) ∧
    (specMissingErrors tei).Nodup ∧
    (∀ m ∈ specMissingErrors tei, m.type = .error) := by
  refine ⟨by rw [validateTEIDoc_eq_structural, if_pos hroot],
    specMissingErrors_nodup tei, ?_⟩
  intro m hm
  exact structuralErrors_all_error
    (by unfold structuralErrors; exact List.mem_append_right _ hm)

theorem validateTEI_required_elements_witness :
    validateTEIDoc (tel "TEI" []) =
      (if (structuralErrors (tel "TEI" [])).isEmpty
       then [(⟨.success, confTxt⟩ : VMsg)]
       else structuralErrors (tel "TEI" [])) ∧
    (specMissingErrors (tel "TEI" [])).Nodup ∧
    (∀ m ∈ specMissingErrors (tel "TEI" []), m.type = .error) :=
  validateTEI_required_elements (tel "TEI" []) rfl

/-! ## Claim C4 — success purity -/

/-- C4: for every input `x`, `validateTEI x` contains a success message iff
it contains zero error messages; with no errors it is exactly the one
success message, and with an error it is a nonempty all-error list (so no
success message is mixed in). -/
theorem validateTEI_success_purity (x : String) :
    ((∃ m ∈ validateTEI x, m.type = .success) ↔
      ∀ m ∈ validateTEI x, m.type ≠ .error) ∧
    ((∀ m ∈ validateTEI x, m.type ≠ .error) →
      validateTEI x = [⟨.success, confTxt⟩]) ∧
    ((∃ m ∈ validateTEI x, m.type = .error) →
      (∀ m ∈ validateTEI x, m.type = .error) ∧ validateTEI x ≠ []) :=
  validateTEIDoc_purity (domDoc x)

theorem validateTEI_success_purity_witness :
    (∃ m ∈ validateTEI "<a/>", m.type = MsgType.error) ∧
    ((∀ m ∈ validateTEI "<a/>", m.type = MsgType.error) ∧
      validateTEI "<a/>" ≠ []) :=
  ⟨⟨⟨.error, rootErrTxt⟩, by decide, rfl⟩,
    (validateTEI_success_purity "<a/>").2.2 ⟨⟨.error, rootErrTxt⟩, by decide, rfl⟩⟩

/-! ## Claim C8 — the namespace check does not short-circuit -/

/-- C8: on a well-formed document whose root is `TEI` but whose namespace is
missing or wrong, the walk emits the namespace error first and still runs all
required-element checks, whose errors follow it in order. -/
theorem validateTEI_ns_no_shortcircuit (tei : XNode)
    (hroot : tei.name = "TEI") (hns : tei.ns ≠ some teiNS) :
    validateTEIDoc tei = ⟨.error, nsErrTxt⟩ :: specMissingErrors tei := by
  rw [validateTEIDoc_eq_structural, if_pos hroot]
  have hcheck : nsCheck tei = [⟨.error, nsErrTxt⟩] := by
    unfold nsCheck
    rw [if_pos hns]
  unfold structuralErrors
  rw [hcheck]
  simp

theorem validateTEI_ns_no_shortcircuit_witness :
    validateTEIDoc noNsRoot = ⟨.error, nsErrTxt⟩ :: specMissingErrors noNsRoot ∧
    specMissingErrors noNsRoot =
      [⟨.error, hdrErrTxt⟩, ⟨.error, textErrTxt⟩] :=
  ⟨validateTEI_ns_no_shortcircuit noNsRoot rfl (by decide), by decide⟩

/-! ## Claim C9 — descendant search and first-match semantics -/

/-- C9: the walk locates required elements by descendant search and examines
only the first match in document order: `nestedHeaderDoc`, whose `teiHeader`
is nested inside `text` (not a direct child of the root), still validates
with a single success message; and `twinTitleStmtDoc`, whose first
`titleStmt` lacks a `title` while a later `titleStmt` contains one, is
flagged with exactly the missing-`title` error. -/
theorem validateTEI_descendant_search :
    validateTEIDoc nestedHeaderDoc = [⟨.success, confTxt⟩] ∧
    (nestedHeaderDoc.kids.filter (fun k => k.name == "teiHeader")).isEmpty = true ∧
    validateTEIDoc twinTitleStmtDoc = [⟨.error, titleErrTxt⟩] ∧
    (getElems twinTitleStmtDoc "titleStmt").any (fun ts => hasTag ts "title") = true := by
  refine ⟨by decide, by decide, by decide, by decide⟩

/-! ## Claim C10 — undo/redo frame -/

/-- C10: `undo` and `redo` never change the snapshot list (nor the message
list); they change only the cursor and the displayed buffer, and when they
act the buffer is set to exactly the snapshot at the new cursor. -/
theorem undo_redo_frame (s : EditorState) :
    (undo s).history = s.history ∧
    (redo s).history = s.history ∧
    (undo s).validationMessages = s.validationMessages ∧
    (redo s).validationMessages = s.validationMessages ∧
    (0 < s.currentIndex →
      (undo s).currentIndex = s.currentIndex - 1 ∧
      (undo s).xmlContent = s.history.getD (s.currentIndex - 1) "") ∧
    (¬ 0 < s.currentIndex → undo s = s) ∧
    (s.currentIndex < s.history.length - 1 →
      (redo s).currentIndex = s.currentIndex + 1 ∧
      (redo s).xmlContent = s.history.getD (s.currentIndex + 1) "") ∧
    (¬ s.currentIndex < s.history.length - 1 → redo s = s) := by
  unfold undo redo
  by_cases h1 : 0 < s.currentIndex <;>
    by_cases h2 : s.currentIndex < s.history.length - 1 <;>
    simp [h1, h2]

theorem undo_redo_frame_witness :
    (undo undoWitnessState).history = undoWitnessState.history ∧
    0 < undoWitnessState.currentIndex ∧
    (undo undoWitnessState).currentIndex = undoWitnessState.currentIndex - 1 ∧
    (undo undoWitnessState).xmlContent =
      undoWitnessState.history.getD (undoWitnessState.currentIndex - 1) "" :=
  ⟨(undo_redo_frame undoWitnessState).1, by decide,
    ((undo_redo_frame undoWitnessState).2.2.2.2.1 (by decide)).1,
    ((undo_redo_frame undoWitnessState).2.2.2.2.1 (by decide)).2⟩

/-! ## Claim C7 — branch discard -/

/-- C7: `record(a); record(b); undo(); record(c)` truncates at the cursor, so
the log ends in `[a, c]` with the cursor on `c`, and (as long as `b` is not
coincidentally equal to a retained snapshot) `b` is not in the log and no
sequence of `redo()` calls can ever display it again. -/
theorem history_branch_discard (s : EditorState) (a b c : String)
    (s4 : EditorState)
    (hs4 : s4 = recordEdit (undo (recordEdit (recordEdit s a) b)) c) :
    s4.history = s.history.take (s.currentIndex + 1) ++ [a, c] ∧
    s4.currentIndex = s4.history.length - 1 ∧
    s4.history.getD s4.currentIndex "" = c ∧
    (b ∉ s.history.take (s.currentIndex + 1) → b ≠ a → b ≠ c →
      ∀ n, b ∉ (redoN n s4).history ∧ (redoN n s4).xmlContent ≠ b) := by
  subst hs4
  set T := s.history.take (s.currentIndex + 1) with hT
  set s1 := recordEdit s a with hs1
  set s2 := recordEdit s1 b with hs2
  set s3 := undo s2 with hs3
  have h1h : s1.history = T ++ [a] := recordEdit_history s a
  have h1i : s1.currentIndex = T.length := recordEdit_currentIndex s a
  have h2h : s2.history = (T ++ [a]) ++ [b] := by
    rw [hs2, recordEdit_history, h1h, h1i]
    rw [show T.length + 1 = (T ++ [a]).length by simp, List.take_length]
  have h2i : s2.currentIndex = T.length + 1 := by
    rw [hs2, recordEdit_currentIndex, h1h, h1i]
    rw [show T.length + 1 = (T ++ [a]).length by simp, List.take_length]
  have h3h : s3.history = (T ++ [a]) ++ [b] := by
    rw [hs3, undo_keeps_history, h2h]
  have h3i : s3.currentIndex = T.length := by
    have := (undo_fields_pos s2 (by rw [h2i]; omega)).1
    rw [hs3, this, h2i]
    omega
  have h4h : (recordEdit s3 c).history = (T ++ [a]) ++ [c] := by
    rw [recordEdit_history, h3h, h3i]
    rw [show ((T ++ [a]) ++ [b]).take (T.length + 1) = T ++ [a] by
      rw [show T.length + 1 = (T ++ [a]).length by simp, List.take_left]]
  have h4i : (recordEdit s3 c).currentIndex = T.length + 1 := by
    rw [recordEdit_currentIndex, h3h, h3i]
    rw [show ((T ++ [a]) ++ [b]).take (T.length + 1) = T ++ [a] by
      rw [show T.length + 1 = (T ++ [a]).length by simp, List.take_left]]
    simp
  refine ⟨by rw [h4h]; simp, ?_, ?_, ?_⟩
  · rw [h4i, h4h]
    simp
  · rw [h4i, h4h]
    rw [show T.length + 1 = (T ++ [a]).length by simp]
    rw [List.getD_append_right _ _ _ _ (le_refl _)]
    simp
  · intro hbT hba hbc n
    have hnot : b ∉ (recordEdit s3 c).history := by
      rw [h4h]
      simp only [List.mem_append, List.mem_singleton]
      rintro ((h | h) | h)
      · exact hbT h
      · exact hba h
      · exact hbc h
    have hxc : (recordEdit s3 c).xmlContent ≠ b := by
      rw [recordEdit_xmlContent]
      exact fun h => hbc h.symm
    have hr := redoN_frame n (recordEdit s3 c) hnot hxc
    exact ⟨by rw [hr.1]; exact hnot, hr.2⟩

theorem history_branch_discard_witness :
    (recordEdit (undo (recordEdit (recordEdit histStartState "a") "b")) "c").history =
      ["x", "a", "c"] ∧
    "b" ∉ (redoN 5 (recordEdit (undo (recordEdit (recordEdit histStartState "a") "b")) "c")).history := by
  have h := history_branch_discard histStartState "a" "b" "c" _ rfl
  refine ⟨h.1.trans (by decide), (h.2.2.2 (by decide) (by decide) (by decide) 5).1⟩

/-! ## Claim C6 — failed formatting leaves the state unchanged -/

/-- C6: when the buffer does not parse, `formatXML` leaves the buffer, the
history log and the cursor exactly as they were and only emits the
fix-syntax-first error message. -/
theorem format_malformed_frame (s : EditorState)
    (h : (parseDocument s.xmlContent).isNone = true) :
    (formatXMLop s).xmlContent = s.xmlContent ∧
    (formatXMLop s).history = s.history ∧
    (formatXMLop s).currentIndex = s.currentIndex ∧
    (formatXMLop s).validationMessages = [⟨.error, fmtErrTxt⟩] := by
  have hpe : docContainsParserError s.xmlContent = true := by
    unfold docContainsParserError docElems domDoc
    rcases hp : parseDocument s.xmlContent with _ | r
    · decide
    · rw [hp] at h
      simp at h
  unfold formatXMLop
  rw [if_pos hpe]
  exact ⟨rfl, rfl, rfl, rfl⟩

theorem format_malformed_frame_witness :
    (parseDocument malformedState.xmlContent).isNone = true ∧
    (formatXMLop malformedState).xmlContent = malformedState.xmlContent ∧
    (formatXMLop malformedState).history = malformedState.history ∧
    (formatXMLop malformedState).currentIndex = malformedState.currentIndex ∧
    (formatXMLop malformedState).validationMessages = [⟨.error, fmtErrTxt⟩] :=
  ⟨by decide,
    (format_malformed_frame malformedState (by decide)).1,
    (format_malformed_frame malformedState (by decide)).2.1,
    (format_malformed_frame malformedState (by decide)).2.2.1,
    (format_malformed_frame malformedState (by decide)).2.2.2⟩

/-! ## The formatter pipeline is idempotent

Infrastructure on lines, whitespace collapse, right trim, and the
tag-collapse machine, leading to `pipelineC_idem`. -/

theorem splitNL_ne_nil (cs : List Char) : splitNL cs ≠ [] := by
  cases cs with
  | nil => simp [splitNL]
  | cons c rest =>
    unfold splitNL
    split
    · simp
    · split <;> simp

theorem mem_splitNL_no_nl :
    ∀ (cs : List Char), ∀ l ∈ splitNL cs, '\n' ∉ l := by
  intro cs
  induction cs with
  | nil =>
    intro l hl
    simp [splitNL] at hl
    simp [hl]
  | cons c rest ih =>
    intro l hl
    unfold splitNL at hl
    by_cases hc : c = '\n'
    · rw [if_pos hc] at hl
      rcases List.mem_cons.mp hl with hl | hl
      · simp [hl]
      · exact ih l hl
    · rw [if_neg hc] at hl
      rcases hsp : splitNL rest with _ | ⟨l0, ls⟩
      · exact absurd hsp (splitNL_ne_nil rest)
      · rw [hsp] at hl
        rcases List.mem_cons.mp hl with hl | hl
        · subst hl
          intro hmem
          rcases List.mem_cons.mp hmem with h | h
          · exact hc h.symm
          · exact ih l0 (by rw [hsp]; exact List.mem_cons_self _ _) h
        · exact ih l (by rw [hsp]; exact List.mem_cons_of_mem _ hl)

theorem splitNL_no_nl {l : List Char} (h : '\n' ∉ l) : splitNL l = [l] := by
  induction l with
  | nil => rfl
  | cons c rest ih =>
    have hc : c ≠ '\n' := fun hh => h (hh ▸ List.mem_cons_self _ _)
    have hrest : '\n' ∉ rest := fun hh => h (List.mem_cons_of_mem _ hh)
    unfold splitNL
    rw [if_neg hc, ih hrest]

theorem splitNL_append_nl {l : List Char} (r : List Char) (h : '\n' ∉ l) :
    splitNL (l ++ '\n' :: r) = l :: splitNL r := by
  induction l with
  | nil =>
    show splitNL ('\n' :: r) = [] :: splitNL r
    rw [splitNL, if_pos rfl]
  | cons c rest ih =>
    have hc : c ≠ '\n' := fun hh => h (hh ▸ List.mem_cons_self _ _)
    have hrest : '\n' ∉ rest := fun hh => h (List.mem_cons_of_mem _ hh)
    show splitNL (c :: (rest ++ '\n' :: r)) = (c :: rest) :: splitNL r
    rw [splitNL, if_neg hc, ih hrest]

theorem joinNL_splitNL : ∀ cs : List Char, joinNL (splitNL cs) = cs := by
  intro cs
  induction cs with
  | nil => rfl
  | cons c rest ih =>
    unfold splitNL
    by_cases hc : c = '\n'
    · rw [if_pos hc]
      rcases hsp : splitNL rest with _ | ⟨l0, ls⟩
      · exact absurd hsp (splitNL_ne_nil rest)
      · rw [hsp] at ih
        subst hc
        show joinNL ([] :: l0 :: ls) = '\n' :: rest
        unfold joinNL
        rw [show joinNL (l0 :: ls) = rest from ih]
        rfl
    · rw [if_neg hc]
      rcases hsp : splitNL rest with _ | ⟨l0, ls⟩
      · exact absurd hsp (splitNL_ne_nil rest)
      · rw [hsp] at ih
        cases ls with
        | nil =>
          show joinNL [c :: l0] = c :: rest
          unfold joinNL at ih ⊢
          rw [show l0 = rest from ih]
        | cons s ss =>
          show joinNL ((c :: l0) :: s :: ss) = c :: rest
          unfold joinNL at ih ⊢
          rw [← ih]
          rfl

theorem splitNL_joinNL :
    ∀ ls : List (List Char), ls ≠ [] → (∀ l ∈ ls, '\n' ∉ l) →
      splitNL (joinNL ls) = ls := by
  intro ls
  induction ls with
  | nil => intro h; exact absurd rfl h
  | cons l ls ih =>
    intro _ hnl
    cases ls with
    | nil =>
      show splitNL (joinNL [l]) = [l]
      unfold joinNL
      exact splitNL_no_nl (hnl l (List.mem_cons_self _ _))
    | cons s ss =>
      show splitNL (joinNL (l :: s :: ss)) = l :: s :: ss
      unfold joinNL
      rw [splitNL_append_nl _ (hnl l (List.mem_cons_self _ _))]
      rw [ih (by simp) (fun x hx => hnl x (List.mem_cons_of_mem _ hx))]

theorem cws_cons_ws_false (c : Char) (rest : List Char) (h : jsWS c = true) :
    collapseWSAux false (c :: rest) = ' ' :: collapseWSAux true rest := by
  conv_lhs => unfold collapseWSAux
  rw [if_pos h, if_neg (by decide)]

theorem cws_cons_ws_true (c : Char) (rest : List Char) (h : jsWS c = true) :
    collapseWSAux true (c :: rest) = collapseWSAux true rest := by
  conv_lhs => unfold collapseWSAux
  rw [if_pos h, if_pos rfl]

theorem cws_cons_nonws (c : Char) (rest : List Char) (b : Bool)
    (h : jsWS c = false) :
    collapseWSAux b (c :: rest) = c :: collapseWSAux false rest := by
  conv_lhs => unfold collapseWSAux
  rw [if_neg (by simp [h])]

theorem mem_collapseWSAux :
    ∀ (l : List Char) (b : Bool) (c : Char), c ∈ collapseWSAux b l →
      c ∈ l ∨ c = ' ' := by
  intro l
  induction l with
  | nil => intro b c h; simp [collapseWSAux] at h
  | cons d rest ih =>
    intro b c h
    by_cases hd : jsWS d = true
    · cases b with
      | true =>
        rw [cws_cons_ws_true d rest hd] at h
        rcases ih true c h with h' | h'
        · exact Or.inl (List.mem_cons_of_mem _ h')
        · exact Or.inr h'
      | false =>
        rw [cws_cons_ws_false d rest hd] at h
        rcases List.mem_cons.mp h with h' | h'
        · exact Or.inr h'
        · rcases ih true c h' with h'' | h''
          · exact Or.inl (List.mem_cons_of_mem _ h'')
          · exact Or.inr h''
    · have hd' : jsWS d = false := by simpa using hd
      rw [cws_cons_nonws d rest b hd'] at h
      rcases List.mem_cons.mp h with h' | h'
      · exact Or.inl (h' ▸ List.mem_cons_self _ _)
      · rcases ih false c h' with h'' | h''
        · exact Or.inl (List.mem_cons_of_mem _ h'')
        · exact Or.inr h''

theorem collapseWSAux_idem :
    ∀ l : List Char,
      collapseWSAux false (collapseWSAux false l) = collapseWSAux false l ∧
      collapseWSAux true (collapseWSAux true l) = collapseWSAux true l := by
  intro l
  induction l with
  | nil => exact ⟨rfl, rfl⟩
  | cons c rest ih =>
    by_cases hc : jsWS c = true
    · constructor
      · rw [cws_cons_ws_false c rest hc,
          cws_cons_ws_false ' ' (collapseWSAux true rest) (by decide), ih.2]
      · rw [cws_cons_ws_true c rest hc, ih.2]
    · have hc' : jsWS c = false := by simpa using hc
      constructor
      · rw [cws_cons_nonws c rest false hc',
          cws_cons_nonws c (collapseWSAux false rest) false hc', ih.1]
      · rw [cws_cons_nonws c rest true hc',
          cws_cons_nonws c (collapseWSAux false rest) true hc', ih.1]

theorem collapseWS_idem (l : List Char) :
    collapseWS (collapseWS l) = collapseWS l :=
  (collapseWSAux_idem l).1

theorem rtws_cons (c : Char) (t : List Char) :
    rtws (c :: t) = if (rtws t).isEmpty && jsWS c then [] else c :: rtws t := rfl

theorem mem_rtws : ∀ (l : List Char) (c : Char), c ∈ rtws l → c ∈ l := by
  intro l
  induction l with
  | nil => intro c h; simp [rtws] at h
  | cons d t ih =>
    intro c h
    rw [rtws_cons] at h
    split at h
    · simp at h
    · rcases List.mem_cons.mp h with h' | h'
      · exact h' ▸ List.mem_cons_self _ _
      · exact List.mem_cons_of_mem _ (ih c h')

theorem rtws_eq_nil_ws : ∀ l : List Char, rtws l = [] → ∀ c ∈ l, jsWS c = true := by
  intro l
  induction l with
  | nil => intro _ c hc; simp at hc
  | cons d t ih =>
    intro h c hc
    rw [rtws_cons] at h
    split at h
    · rename_i hcond
      rcases List.mem_cons.mp hc with rfl | hc'
      · exact (Bool.and_eq_true _ _ |>.mp hcond).2
      · exact ih (List.isEmpty_iff.mp (Bool.and_eq_true _ _ |>.mp hcond).1) c hc'
    · simp at h

theorem rtws_decomp :
    ∀ l : List Char, ∃ w, l = rtws l ++ w ∧ ∀ c ∈ w, jsWS c = true := by
  intro l
  induction l with
  | nil => exact ⟨[], rfl, by simp⟩
  | cons d t ih =>
    rw [rtws_cons]
    split
    · rename_i hcond
      refine ⟨d :: t, rfl, ?_⟩
      intro c hc
      rcases List.mem_cons.mp hc with rfl | hc'
      · exact (Bool.and_eq_true _ _ |>.mp hcond).2
      · exact rtws_eq_nil_ws t
          (List.isEmpty_iff.mp (Bool.and_eq_true _ _ |>.mp hcond).1) c hc'
    · obtain ⟨w, hw, hws⟩ := ih
      exact ⟨w, by rw [List.cons_append, ← hw], hws⟩

theorem rtws_idem : ∀ l : List Char, rtws (rtws l) = rtws l := by
  intro l
  induction l with
  | nil => rfl
  | cons d t ih =>
    rw [rtws_cons]
    split
    · rfl
    · rename_i hcond
      rw [rtws_cons, ih]
      rw [if_neg hcond]

theorem dropWhile_head_not (p : Char → Bool) :
    ∀ l : List Char, l.dropWhile p = [] ∨
      ∃ c t, l.dropWhile p = c :: t ∧ p c = false := by
  intro l
  induction l with
  | nil => exact Or.inl rfl
  | cons d t ih =>
    rw [List.dropWhile_cons]
    split
    · exact ih
    · rename_i hd
      exact Or.inr ⟨d, t, rfl, by simpa using hd⟩

theorem trimLine_idem (l : List Char) : trimLine (trimLine l) = trimLine l := by
  unfold trimLine
  set d := l.dropWhile jsWS with hd
  have hdrop : (rtws d).dropWhile jsWS = rtws d := by
    rcases dropWhile_head_not jsWS l with h0 | ⟨c, t, hct, hc⟩
    · rw [← hd] at h0
      rw [h0]
      rfl
    · rw [← hd] at hct
      rw [hct, rtws_cons]
      split
      · rfl
      · rw [List.dropWhile_cons, hc]
        simp
  rw [hdrop, rtws_idem]

theorem mem_trimLine (l : List Char) (c : Char) (h : c ∈ trimLine l) : c ∈ l := by
  unfold trimLine at h
  exact (List.dropWhile_suffix jsWS).subset (mem_rtws _ c h)

theorem chain'_rtws {R : Char → Char → Prop} {l : List Char}
    (h : List.Chain' R l) : List.Chain' R (rtws l) := by
  obtain ⟨w, hw, _⟩ := rtws_decomp l
  rw [hw] at h
  exact (List.chain'_append.mp h).1

theorem chain'_trimLine {R : Char → Char → Prop} {l : List Char}
    (h : List.Chain' R l) : List.Chain' R (trimLine l) := by
  unfold trimLine
  apply chain'_rtws
  have hsplit : l.takeWhile jsWS ++ l.dropWhile jsWS = l :=
    List.takeWhile_append_dropWhile jsWS l
  rw [← hsplit] at h
  exact (List.chain'_append.mp h).2.1

theorem cta_some_nil (racc : List Char) :
    collapseTagsAux (some racc) [] = '<' :: racc.reverse := rfl

theorem cta_none_lt (rest : List Char) :
    collapseTagsAux none ('<' :: rest) = collapseTagsAux (some []) rest := by
  conv_lhs => unfold collapseTagsAux
  rw [if_pos rfl]

theorem cta_none_cons (c : Char) (rest : List Char) (h : c ≠ '<') :
    collapseTagsAux none (c :: rest) = c :: collapseTagsAux none rest := by
  conv_lhs => unfold collapseTagsAux
  rw [if_neg h]

theorem cta_some_gt (racc rest : List Char) :
    collapseTagsAux (some racc) ('>' :: rest) =
      '<' :: (collapseWS racc.reverse ++ '>' :: collapseTagsAux none rest) := by
  conv_lhs => unfold collapseTagsAux
  rw [if_pos rfl]

theorem cta_some_nl (racc rest : List Char) :
    collapseTagsAux (some racc) ('\n' :: rest) =
      '<' :: (racc.reverse ++ '\n' :: collapseTagsAux none rest) := by
  conv_lhs => unfold collapseTagsAux
  rw [if_neg (by decide), if_pos rfl]

theorem cta_some_cons (racc : List Char) (c : Char) (rest : List Char)
    (h1 : c ≠ '>') (h2 : c ≠ '\n') :
    collapseTagsAux (some racc) (c :: rest) =
      collapseTagsAux (some (c :: racc)) rest := by
  conv_lhs => unfold collapseTagsAux
  rw [if_neg h1, if_neg h2]

theorem mem_collapseTagsAux :
    ∀ (l : List Char) (st : Option (List Char)) (c : Char),
      c ∈ collapseTagsAux st l →
      c ∈ l ∨ c = ' ' ∨ c = '<' ∨ ∃ racc, st = some racc ∧ c ∈ racc := by
  intro l
  induction l with
  | nil =>
    intro st c h
    cases st with
    | none => simp [collapseTagsAux] at h
    | some racc =>
      rw [cta_some_nil] at h
      rcases List.mem_cons.mp h with rfl | h'
      · exact Or.inr (Or.inr (Or.inl rfl))
      · exact Or.inr (Or.inr (Or.inr ⟨racc, rfl, List.mem_reverse.mp h'⟩))
  | cons d rest ih =>
    intro st c h
    cases st with
    | none =>
      by_cases hd : d = '<'
      · subst hd
        rw [cta_none_lt] at h
        rcases ih (some []) c h with h' | h' | h' | ⟨racc, hracc, hmem⟩
        · exact Or.inl (List.mem_cons_of_mem _ h')
        · exact Or.inr (Or.inl h')
        · exact Or.inr (Or.inr (Or.inl h'))
        · rcases Option.some.inj hracc with rfl
          simp at hmem
      · rw [cta_none_cons d rest hd] at h
        rcases List.mem_cons.mp h with rfl | h'
        · exact Or.inl (List.mem_cons_self _ _)
        · rcases ih none c h' with h'' | h'' | h'' | ⟨racc, hracc, _⟩
          · exact Or.inl (List.mem_cons_of_mem _ h'')
          · exact Or.inr (Or.inl h'')
          · exact Or.inr (Or.inr (Or.inl h''))
          · cases hracc
    | some racc =>
      by_cases hgt : d = '>'
      · subst hgt
        rw [cta_some_gt] at h
        rcases List.mem_cons.mp h with rfl | h'
        · exact Or.inr (Or.inr (Or.inl rfl))
        · rcases List.mem_append.mp h' with h'' | h''
          · rcases mem_collapseWSAux racc.reverse false c h'' with h3 | h3
            · exact Or.inr (Or.inr (Or.inr ⟨racc, rfl, List.mem_reverse.mp h3⟩))
            · exact Or.inr (Or.inl h3)
          · rcases List.mem_cons.mp h'' with rfl | h3
            · exact Or.inl (List.mem_cons_self _ _)
            · rcases ih none c h3 with h4 | h4 | h4 | ⟨racc2, hracc2, _⟩
              · exact Or.inl (List.mem_cons_of_mem _ h4)
              · exact Or.inr (Or.inl h4)
              · exact Or.inr (Or.inr (Or.inl h4))
              · cases hracc2
      · by_cases hnl : d = '\n'
        · subst hnl
          rw [cta_some_nl] at h
          rcases List.mem_cons.mp h with rfl | h'
          · exact Or.inr (Or.inr (Or.inl rfl))
          · rcases List.mem_append.mp h' with h'' | h''
            · exact Or.inr (Or.inr (Or.inr ⟨racc, rfl, List.mem_reverse.mp h''⟩))
            · rcases List.mem_cons.mp h'' with rfl | h3
              · exact Or.inl (List.mem_cons_self _ _)
              · rcases ih none c h3 with h4 | h4 | h4 | ⟨racc2, hracc2, _⟩
                · exact Or.inl (List.mem_cons_of_mem _ h4)
                · exact Or.inr (Or.inl h4)
                · exact Or.inr (Or.inr (Or.inl h4))
                · cases hracc2
        · rw [cta_some_cons racc d rest hgt hnl] at h
          rcases ih (some (d :: racc)) c h with h' | h' | h' | ⟨racc2, hracc2, hmem⟩
          · exact Or.inl (List.mem_cons_of_mem _ h')
          · exact Or.inr (Or.inl h')
          · exact Or.inr (Or.inr (Or.inl h'))
          · rcases Option.some.inj hracc2 with rfl
            rcases List.mem_cons.mp hmem with rfl | h3
            · exact Or.inl (List.mem_cons_self _ _)
            · exact Or.inr (Or.inr (Or.inr ⟨racc, rfl, h3⟩))

theorem no_nl_collapseTags {l : List Char} (h : '\n' ∉ l) :
    '\n' ∉ collapseTags l := by
  intro hmem
  rcases mem_collapseTagsAux l none '\n' hmem with h' | h' | h' | ⟨_, h', _⟩
  · exact h h'
  · simp at h'
  · simp at h'
  · cases h'

theorem cta_some_starts_lt :
    ∀ (l : List Char) (racc : List Char),
      ∃ t, collapseTagsAux (some racc) l = '<' :: t := by
  intro l
  induction l with
  | nil => intro racc; exact ⟨racc.reverse, rfl⟩
  | cons c rest ih =>
    intro racc
    by_cases hgt : c = '>'
    · subst hgt
      exact ⟨_, cta_some_gt racc rest⟩
    · by_cases hnl : c = '\n'
      · subst hnl
        exact ⟨_, cta_some_nl racc rest⟩
      · rw [cta_some_cons racc c rest hgt hnl]
        exact ih (c :: racc)

theorem cta_none_head (l : List Char) :
    (collapseTagsAux none l).head? = l.head? := by
  cases l with
  | nil => rfl
  | cons c rest =>
    by_cases hc : c = '<'
    · subst hc
      rw [cta_none_lt]
      obtain ⟨t, ht⟩ := cta_some_starts_lt rest []
      rw [ht]
      rfl
    · rw [cta_none_cons c rest hc]
      rfl

theorem cta_append_nl :
    ∀ (l : List Char) (st : Option (List Char)) (r : List Char), '\n' ∉ l →
      collapseTagsAux st (l ++ '\n' :: r) =
        collapseTagsAux st l ++ '\n' :: collapseTagsAux none r := by
  intro l
  induction l with
  | nil =>
    intro st r _
    cases st with
    | none =>
      rw [List.nil_append, cta_none_cons '\n' r (by decide)]
      rfl
    | some racc =>
      rw [List.nil_append, cta_some_nl, cta_some_nil]
      simp
  | cons c rest ih =>
    intro st r h
    have hc : c ≠ '\n' := fun hh => h (hh ▸ List.mem_cons_self _ _)
    have hrest : '\n' ∉ rest := fun hh => h (List.mem_cons_of_mem _ hh)
    cases st with
    | none =>
      by_cases hlt : c = '<'
      · subst hlt
        rw [List.cons_append, cta_none_lt, cta_none_lt, ih (some []) r hrest]
      · rw [List.cons_append, cta_none_cons c _ hlt, cta_none_cons c rest hlt,
          ih none r hrest]
        rfl
    | some racc =>
      by_cases hgt : c = '>'
      · subst hgt
        rw [List.cons_append, cta_some_gt, cta_some_gt, ih none r hrest]
        simp
      · rw [List.cons_append, cta_some_cons racc c _ hgt hc,
          cta_some_cons racc c rest hgt hc, ih (some (c :: racc)) r hrest]

theorem collapseTags_joinNL :
    ∀ ls : List (List Char), ls ≠ [] → (∀ l ∈ ls, '\n' ∉ l) →
      collapseTags (joinNL ls) = joinNL (ls.map collapseTags) := by
  intro ls
  induction ls with
  | nil => intro h; exact absurd rfl h
  | cons l ls ih =>
    intro _ hnl
    cases ls with
    | nil => rfl
    | cons s ss =>
      show collapseTags (joinNL (l :: s :: ss)) =
        joinNL (collapseTags l :: (s :: ss).map collapseTags)
      have hmap : (s :: ss).map collapseTags =
          collapseTags s :: ss.map collapseTags := rfl
      unfold joinNL
      rw [hmap]
      unfold collapseTags
      rw [cta_append_nl l none _ (hnl l (List.mem_cons_self _ _))]
      have := ih (by simp) (fun x hx => hnl x (List.mem_cons_of_mem _ hx))
      unfold collapseTags at this
      show _ ++ '\n' :: collapseTagsAux none (joinNL (s :: ss)) = _
      rw [this]
      rfl

theorem cta_some_to_gt :
    ∀ (inner : List Char) (racc rest : List Char),
      '>' ∉ inner → '\n' ∉ inner →
      collapseTagsAux (some racc) (inner ++ '>' :: rest) =
        '<' :: (collapseWS (racc.reverse ++ inner) ++
          '>' :: collapseTagsAux none rest) := by
  intro inner
  induction inner with
  | nil =>
    intro racc rest _ _
    rw [List.nil_append, cta_some_gt, List.append_nil]
  | cons c inner' ih =>
    intro racc rest hgt hnl
    have hc1 : c ≠ '>' := fun hh => hgt (hh ▸ List.mem_cons_self _ _)
    have hc2 : c ≠ '\n' := fun hh => hnl (hh ▸ List.mem_cons_self _ _)
    rw [List.cons_append, cta_some_cons racc c _ hc1 hc2,
      ih (c :: racc) rest (fun hh => hgt (List.mem_cons_of_mem _ hh))
        (fun hh => hnl (List.mem_cons_of_mem _ hh))]
    simp

theorem cta_some_no_gt :
    ∀ (l : List Char) (racc : List Char), '>' ∉ l → '\n' ∉ l →
      collapseTagsAux (some racc) l = '<' :: (racc.reverse ++ l) := by
  intro l
  induction l with
  | nil => intro racc _ _; rw [cta_some_nil, List.append_nil]
  | cons c l' ih =>
    intro racc hgt hnl
    have hc1 : c ≠ '>' := fun hh => hgt (hh ▸ List.mem_cons_self _ _)
    have hc2 : c ≠ '\n' := fun hh => hnl (hh ▸ List.mem_cons_self _ _)
    rw [cta_some_cons racc c l' hc1 hc2,
      ih (c :: racc) (fun hh => hgt (List.mem_cons_of_mem _ hh))
        (fun hh => hnl (List.mem_cons_of_mem _ hh))]
    simp

theorem insNL_nonGt (c : Char) (rest : List Char) (h : c ≠ '>') :
    insertNL (c :: rest) = c :: insertNL rest := by
  conv_lhs => unfold insertNL
  rw [if_neg h]

theorem insNL_gt_nil : insertNL ['>'] = ['>'] := rfl

theorem insNL_gt_lt (rest : List Char) :
    insertNL ('>' :: '<' :: rest) = '>' :: '\n' :: '<' :: insertNL rest := by
  conv_lhs => unfold insertNL
  rw [if_pos rfl]
  show (if '<' = '<' then '>' :: '\n' :: '<' :: insertNL rest
        else '>' :: insertNL ('<' :: rest)) = _
  rw [if_pos rfl]

theorem insNL_gt_other (d : Char) (rest : List Char) (h : d ≠ '<') :
    insertNL ('>' :: d :: rest) = '>' :: insertNL (d :: rest) := by
  conv_lhs => unfold insertNL
  rw [if_pos rfl]
  show (if d = '<' then '>' :: '\n' :: '<' :: insertNL rest
        else '>' :: insertNL (d :: rest)) = _
  rw [if_neg h]

theorem insNL_head : ∀ cs : List Char, (insertNL cs).head? = cs.head? := by
  intro cs
  cases cs with
  | nil => rfl
  | cons c rest =>
    by_cases hc : c = '>'
    · subst hc
      cases rest with
      | nil => rfl
      | cons d rest' =>
        by_cases hd : d = '<'
        · subst hd
          rw [insNL_gt_lt]
          rfl
        · rw [insNL_gt_other d rest' hd]
          rfl
    · rw [insNL_nonGt c rest hc]
      rfl

theorem okPair_left {a b : Char} (h : a ≠ '>') : okPair a b :=
  fun hab => h hab.1

theorem okPair_right {a b : Char} (h : b ≠ '<') : okPair a b :=
  fun hab => h hab.2

theorem chain'_insertNL_aux :
    ∀ (n : Nat) (cs : List Char), cs.length ≤ n →
      List.Chain' okPair (insertNL cs) := by
  intro n
  induction n with
  | zero =>
    intro cs hl
    rw [List.length_eq_zero.mp (Nat.le_zero.mp hl)]
    exact List.chain'_nil
  | succ n ih =>
    intro cs hl
    cases cs with
    | nil => exact List.chain'_nil
    | cons c rest =>
      by_cases hc : c = '>'
      · subst hc
        cases rest with
        | nil => exact List.chain'_singleton _
        | cons d rest' =>
          by_cases hd : d = '<'
          · subst hd
            rw [insNL_gt_lt]
            refine List.chain'_cons'.mpr ⟨?_, ?_⟩
            · intro y hy
              rcases Option.some.inj hy with rfl
              exact okPair_right (by decide)
            refine List.chain'_cons'.mpr ⟨fun y _ => okPair_left (by decide), ?_⟩
            refine List.chain'_cons'.mpr ⟨fun y _ => okPair_left (by decide), ?_⟩
            exact ih rest' (by simp only [List.length_cons] at hl; omega)
          · rw [insNL_gt_other d rest' hd]
            refine List.chain'_cons'.mpr
              ⟨?_, ih (d :: rest') (by simp only [List.length_cons] at hl ⊢; omega)⟩
            intro y hy
            rw [insNL_head] at hy
            rcases Option.some.inj hy with rfl
            exact okPair_right hd
      · rw [insNL_nonGt c rest hc]
        exact List.chain'_cons'.mpr
          ⟨fun y _ => okPair_left hc,
            ih rest (by simp only [List.length_cons] at hl; omega)⟩

theorem chain'_insertNL (cs : List Char) :
    List.Chain' okPair (insertNL cs) :=
  chain'_insertNL_aux cs.length cs le_rfl

theorem insertNL_eq_self :
    ∀ (n : Nat) (cs : List Char), cs.length ≤ n →
      List.Chain' okPair cs → insertNL cs = cs := by
  intro n
  induction n with
  | zero =>
    intro cs hl _
    rw [List.length_eq_zero.mp (Nat.le_zero.mp hl)]
    rfl
  | succ n ih =>
    intro cs hl hch
    cases cs with
    | nil => rfl
    | cons c rest =>
      by_cases hc : c = '>'
      · subst hc
        cases rest with
        | nil => exact insNL_gt_nil
        | cons d rest' =>
          by_cases hd : d = '<'
          · subst hd
            exact absurd ((List.chain'_cons'.mp hch).1 '<' rfl) (fun h => h ⟨rfl, rfl⟩)
          · rw [insNL_gt_other d rest' hd,
              ih (d :: rest') (by simp only [List.length_cons] at hl ⊢; omega)
                (List.Chain'.tail hch)]
      · rw [insNL_nonGt c rest hc,
          ih rest (by simp only [List.length_cons] at hl; omega)
            (List.Chain'.tail hch)]

theorem chain'_of_no_gt {l : List Char} (h : ∀ c ∈ l, c ≠ '>') :
    List.Chain' okPair l := by
  induction l with
  | nil => exact List.chain'_nil
  | cons c rest ih =>
    refine List.chain'_cons'.mpr
      ⟨fun y _ => okPair_left (h c (List.mem_cons_self _ _)), ?_⟩
    exact ih (fun d hd => h d (List.mem_cons_of_mem _ hd))

theorem cws_head (l : List Char) :
    (collapseWSAux false l).head? =
      l.head?.map (fun d => if jsWS d then ' ' else d) := by
  cases l with
  | nil => rfl
  | cons c rest =>
    by_cases hc : jsWS c = true
    · rw [cws_cons_ws_false c rest hc]
      simp [hc]
    · have hc' : jsWS c = false := by simpa using hc
      rw [cws_cons_nonws c rest false hc']
      simp [hc']

theorem chain'_collapseWSAux :
    ∀ (l : List Char) (b : Bool), List.Chain' okPair l →
      List.Chain' okPair (collapseWSAux b l) := by
  intro l
  induction l with
  | nil => intro b _; exact List.chain'_nil
  | cons c rest ih =>
    intro b hch
    by_cases hc : jsWS c = true
    · cases b with
      | true =>
        rw [cws_cons_ws_true c rest hc]
        exact ih true (List.Chain'.tail hch)
      | false =>
        rw [cws_cons_ws_false c rest hc]
        refine List.chain'_cons'.mpr ⟨fun y _ => okPair_left (by decide), ?_⟩
        exact ih true (List.Chain'.tail hch)
    · have hc' : jsWS c = false := by simpa using hc
      rw [cws_cons_nonws c rest b hc']
      refine List.chain'_cons'.mpr ⟨?_, ih false (List.Chain'.tail hch)⟩
      intro y hy
      rw [cws_head] at hy
      cases rest with
      | nil => simp at hy
      | cons d rest' =>
        simp only [List.head?_cons, Option.map_some'] at hy
        rcases Option.some.inj hy with rfl
        by_cases hd : jsWS d = true
        · rw [if_pos hd]
          exact okPair_right (by decide)
        · rw [if_neg hd]
          exact (List.chain'_cons'.mp hch).1 d rfl

theorem chain'_cws (l : List Char) (h : List.Chain' okPair l) :
    List.Chain' okPair (collapseWS l) :=
  chain'_collapseWSAux l false h

theorem chain'_cta_aux :
    ∀ (n : Nat) (l : List Char), l.length ≤ n →
      (List.Chain' okPair l → List.Chain' okPair (collapseTagsAux none l)) ∧
      (∀ racc, List.Chain' okPair ('<' :: (racc.reverse ++ l)) →
        List.Chain' okPair (collapseTagsAux (some racc) l)) := by
  intro n
  induction n with
  | zero =>
    intro l hl
    rw [List.length_eq_zero.mp (Nat.le_zero.mp hl)]
    constructor
    · intro _; exact List.chain'_nil
    · intro racc hinv
      rw [cta_some_nil]
      simpa using hinv
  | succ n ih =>
    intro l hl
    cases l with
    | nil =>
      constructor
      · intro _; exact List.chain'_nil
      · intro racc hinv
        rw [cta_some_nil]
        simpa using hinv
    | cons c rest =>
      have hrest : rest.length ≤ n := by
        simp only [List.length_cons] at hl; omega
      constructor
      · intro hch
        by_cases hlt : c = '<'
        · subst hlt
          rw [cta_none_lt]
          apply (ih rest hrest).2 []
          simpa using hch
        · rw [cta_none_cons c rest hlt]
          refine List.chain'_cons'.mpr
            ⟨?_, (ih rest hrest).1 (List.Chain'.tail hch)⟩
          intro y hy
          rw [cta_none_head] at hy
          exact (List.chain'_cons'.mp hch).1 y hy
      · intro racc hinv
        by_cases hgt : c = '>'
        · subst hgt
          rw [cta_some_gt]
          have hparts := List.chain'_append.mp (List.Chain'.tail hinv)
          refine List.chain'_cons'.mpr ⟨fun y _ => okPair_left (by decide), ?_⟩
          refine List.chain'_append.mpr ⟨chain'_cws _ hparts.1, ?_, ?_⟩
          · refine List.chain'_cons'.mpr
              ⟨?_, (ih rest hrest).1 (List.Chain'.tail hparts.2.1)⟩
            intro y hy
            rw [cta_none_head] at hy
            exact (List.chain'_cons'.mp hparts.2.1).1 y hy
          · intro x _ y hy
            rcases Option.some.inj hy with rfl
            exact okPair_right (by decide)
        · by_cases hnl : c = '\n'
          · subst hnl
            rw [cta_some_nl]
            have hparts := List.chain'_append.mp (List.Chain'.tail hinv)
            refine List.chain'_cons'.mpr ⟨fun y _ => okPair_left (by decide), ?_⟩
            refine List.chain'_append.mpr ⟨hparts.1, ?_, ?_⟩
            · refine List.chain'_cons'.mpr ⟨fun y _ => okPair_left (by decide),
                (ih rest hrest).1 (List.Chain'.tail hparts.2.1)⟩
            · intro x _ y hy
              rcases Option.some.inj hy with rfl
              exact okPair_right (by decide)
          · rw [cta_some_cons racc c rest hgt hnl]
            apply (ih rest hrest).2 (c :: racc)
            have harr : (c :: racc).reverse ++ rest = racc.reverse ++ (c :: rest) := by
              simp
            rw [harr]
            exact hinv

theorem chain'_collapseTags {l : List Char} (h : List.Chain' okPair l) :
    List.Chain' okPair (collapseTags l) :=
  (chain'_cta_aux l.length l le_rfl).1 h

theorem splitNL_head_piece :
    ∀ (cs : List Char) (l : List Char) (ls : List (List Char)),
      splitNL cs = l :: ls → ∀ d, l.head? = some d → cs.head? = some d := by
  intro cs l ls heq d hd
  cases cs with
  | nil =>
    rw [show splitNL [] = [[]] from rfl] at heq
    injection heq with h1 _
    rw [← h1] at hd
    simp at hd
  | cons c rest =>
    unfold splitNL at heq
    by_cases hc : c = '\n'
    · rw [if_pos hc] at heq
      injection heq with h1 _
      rw [← h1] at hd
      simp at hd
    · rw [if_neg hc] at heq
      rcases hsp : splitNL rest with _ | ⟨l0, ls0⟩
      · exact absurd hsp (splitNL_ne_nil rest)
      · rw [hsp] at heq
        injection heq with h1 _
        rw [← h1] at hd
        simp only [List.head?_cons, Option.some.injEq] at hd
        rw [List.head?_cons, hd]

theorem chain'_splitNL_pieces :
    ∀ cs : List Char, List.Chain' okPair cs →
      ∀ l ∈ splitNL cs, List.Chain' okPair l := by
  intro cs
  induction cs with
  | nil =>
    intro _ l hl
    rw [show splitNL [] = [[]] from rfl] at hl
    rcases List.mem_singleton.mp hl with rfl
    exact List.chain'_nil
  | cons c rest ih =>
    intro hch l hl
    unfold splitNL at hl
    by_cases hc : c = '\n'
    · rw [if_pos hc] at hl
      rcases List.mem_cons.mp hl with rfl | hl'
      · exact List.chain'_nil
      · exact ih (List.Chain'.tail hch) l hl'
    · rw [if_neg hc] at hl
      rcases hsp : splitNL rest with _ | ⟨l0, ls0⟩
      · exact absurd hsp (splitNL_ne_nil rest)
      · rw [hsp] at hl
        rcases List.mem_cons.mp hl with rfl | hl'
        · refine List.chain'_cons'.mpr ⟨?_, ?_⟩
          · intro y hy
            have := splitNL_head_piece rest l0 ls0 hsp y hy
            exact (List.chain'_cons'.mp hch).1 y this
          · exact ih (List.Chain'.tail hch) l0 (by rw [hsp]; exact List.mem_cons_self _ _)
        · exact ih (List.Chain'.tail hch) l (by rw [hsp]; exact List.mem_cons_of_mem _ hl')

theorem chain'_joinNL :
    ∀ ls : List (List Char), (∀ l ∈ ls, List.Chain' okPair l) →
      List.Chain' okPair (joinNL ls) := by
  intro ls
  induction ls with
  | nil => intro _; exact List.chain'_nil
  | cons l ls ih =>
    intro h
    cases ls with
    | nil => exact h l (List.mem_cons_self _ _)
    | cons s ss =>
      show List.Chain' okPair (l ++ '\n' :: joinNL (s :: ss))
      refine List.chain'_append.mpr
        ⟨h l (List.mem_cons_self _ _), ?_, ?_⟩
      · refine List.chain'_cons'.mpr ⟨fun y _ => okPair_left (by decide),
          ih (fun x hx => h x (List.mem_cons_of_mem _ hx))⟩
      · intro x _ y hy
        rcases Option.some.inj hy with rfl
        exact okPair_right (by decide)

theorem ctf_none_lt (rest : List Char) :
    ctFixedAux none ('<' :: rest) = ctFixedAux (some []) rest := by
  conv_lhs => unfold ctFixedAux
  rw [if_pos rfl]

theorem ctf_none_cons (c : Char) (rest : List Char) (h : c ≠ '<') :
    ctFixedAux none (c :: rest) = ctFixedAux none rest := by
  conv_lhs => unfold ctFixedAux
  rw [if_neg h]

theorem ctf_some_gt (racc rest : List Char) :
    ctFixedAux (some racc) ('>' :: rest) =
      ((collapseWS racc.reverse == racc.reverse) && ctFixedAux none rest) := by
  conv_lhs => unfold ctFixedAux
  rw [if_pos rfl]

theorem ctf_some_nl (racc rest : List Char) :
    ctFixedAux (some racc) ('\n' :: rest) = ctFixedAux none rest := by
  conv_lhs => unfold ctFixedAux
  rw [if_neg (by decide), if_pos rfl]

theorem ctf_some_cons (racc : List Char) (c : Char) (rest : List Char)
    (h1 : c ≠ '>') (h2 : c ≠ '\n') :
    ctFixedAux (some racc) (c :: rest) = ctFixedAux (some (c :: racc)) rest := by
  conv_lhs => unfold ctFixedAux
  rw [if_neg h1, if_neg h2]

theorem ctFixed_cta :
    ∀ (l : List Char) (st : Option (List Char)), ctFixedAux st l = true →
      collapseTagsAux st l =
        (match st with
         | none => l
         | some racc => '<' :: (racc.reverse ++ l)) := by
  intro l
  induction l with
  | nil =>
    intro st _
    cases st with
    | none => rfl
    | some racc => rw [cta_some_nil]; simp
  | cons c rest ih =>
    intro st h
    cases st with
    | none =>
      by_cases hlt : c = '<'
      · subst hlt
        rw [ctf_none_lt] at h
        rw [cta_none_lt, ih (some []) h]
        simp
      · rw [ctf_none_cons c rest hlt] at h
        rw [cta_none_cons c rest hlt, ih none h]
    | some racc =>
      by_cases hgt : c = '>'
      · subst hgt
        rw [ctf_some_gt] at h
        obtain ⟨hbeq, hrest⟩ := Bool.and_eq_true _ _ |>.mp h
        rw [cta_some_gt, ih none hrest, eq_of_beq hbeq]
      · by_cases hnl : c = '\n'
        · subst hnl
          rw [ctf_some_nl] at h
          rw [cta_some_nl, ih none h]
        · rw [ctf_some_cons racc c rest hgt hnl] at h
          rw [cta_some_cons racc c rest hgt hnl, ih (some (c :: racc)) h]
          simp

theorem ctFixed_collapseTags_id {l : List Char}
    (h : ctFixedAux none l = true) : collapseTags l = l :=
  ctFixed_cta l none h

theorem ctf_some_no_gt :
    ∀ (l : List Char) (racc : List Char), '>' ∉ l → '\n' ∉ l →
      ctFixedAux (some racc) l = true := by
  intro l
  induction l with
  | nil => intro racc _ _; rfl
  | cons c rest ih =>
    intro racc hgt hnl
    have hc1 : c ≠ '>' := fun hh => hgt (hh ▸ List.mem_cons_self _ _)
    have hc2 : c ≠ '\n' := fun hh => hnl (hh ▸ List.mem_cons_self _ _)
    rw [ctf_some_cons racc c rest hc1 hc2]
    exact ih (c :: racc) (fun hh => hgt (List.mem_cons_of_mem _ hh))
      (fun hh => hnl (List.mem_cons_of_mem _ hh))

theorem ctf_some_to_gt :
    ∀ (inner : List Char) (racc rest : List Char),
      '>' ∉ inner → '\n' ∉ inner →
      ctFixedAux (some racc) (inner ++ '>' :: rest) =
        ((collapseWS (racc.reverse ++ inner) == racc.reverse ++ inner) &&
          ctFixedAux none rest) := by
  intro inner
  induction inner with
  | nil =>
    intro racc rest _ _
    rw [List.nil_append, ctf_some_gt, List.append_nil]
  | cons c inner' ih =>
    intro racc rest hgt hnl
    have hc1 : c ≠ '>' := fun hh => hgt (hh ▸ List.mem_cons_self _ _)
    have hc2 : c ≠ '\n' := fun hh => hnl (hh ▸ List.mem_cons_self _ _)
    rw [List.cons_append, ctf_some_cons racc c _ hc1 hc2,
      ih (c :: racc) rest (fun hh => hgt (List.mem_cons_of_mem _ hh))
        (fun hh => hnl (List.mem_cons_of_mem _ hh))]
    simp

theorem jsWS_ne_lt {c : Char} (h : jsWS c = true) : c ≠ '<' := by
  intro hc
  subst hc
  simp [jsWS] at h

theorem ctf_skip_non_lt :
    ∀ (w z : List Char), (∀ c ∈ w, c ≠ '<') →
      ctFixedAux none (w ++ z) = ctFixedAux none z := by
  intro w
  induction w with
  | nil => intro z _; rfl
  | cons c w' ih =>
    intro z h
    rw [List.cons_append, ctf_none_cons c _ (h c (List.mem_cons_self _ _)),
      ih z (fun d hd => h d (List.mem_cons_of_mem _ hd))]

theorem ctf_cta :
    ∀ (n : Nat) (l : List Char), l.length ≤ n → '\n' ∉ l →
      ctFixedAux none (collapseTagsAux none l) = true := by
  intro n
  induction n with
  | zero =>
    intro l hl _
    rw [List.length_eq_zero.mp (Nat.le_zero.mp hl)]
    rfl
  | succ n ih =>
    intro l hl hnl
    cases l with
    | nil => rfl
    | cons c rest =>
      have hrest : rest.length ≤ n := by
        simp only [List.length_cons] at hl; omega
      have hnlr : '\n' ∉ rest := fun hh => hnl (List.mem_cons_of_mem _ hh)
      by_cases hlt : c = '<'
      · subst hlt
        by_cases hmem : '>' ∈ rest
        · have hdw := dropWhile_head_not (fun d => d ≠ '>') rest
          rcases hdw with hdw | ⟨c0, t, hct, hc0⟩
          · exfalso
            have := List.takeWhile_append_dropWhile (fun d => d ≠ '>') rest
            rw [hdw, List.append_nil] at this
            rw [← this] at hmem
            have := List.mem_takeWhile_imp hmem
            simp at this
          · have hc0' : c0 = '>' := by simpa using hc0
            subst hc0'
            have hsplit : rest.takeWhile (fun d => d ≠ '>') ++ '>' :: t = rest := by
              rw [← hct]
              exact List.takeWhile_append_dropWhile _ rest
            set inner := rest.takeWhile (fun d => d ≠ '>') with hinner
            have hgt_inner : '>' ∉ inner := by
              intro hh
              have := List.mem_takeWhile_imp hh
              simp at this
            have hnl_inner : '\n' ∉ inner := by
              intro hh
              apply hnlr
              rw [← hsplit]
              exact List.mem_append_left _ hh
            have hnl_t : '\n' ∉ t := by
              intro hh
              apply hnlr
              rw [← hsplit]
              exact List.mem_append_right _ (List.mem_cons_of_mem _ hh)
            have hlen_t : t.length ≤ n := by
              have := congrArg List.length hsplit
              simp only [List.length_append, List.length_cons] at this
              omega
            rw [cta_none_lt, ← hsplit, cta_some_to_gt inner [] t hgt_inner hnl_inner]
            rw [List.reverse_nil, List.nil_append]
            rw [ctf_none_lt]
            have hM_gt : '>' ∉ collapseWS inner := by
              intro hh
              rcases mem_collapseWSAux inner false '>' hh with h' | h'
              · exact hgt_inner h'
              · simp at h'
            have hM_nl : '\n' ∉ collapseWS inner := by
              intro hh
              rcases mem_collapseWSAux inner false '\n' hh with h' | h'
              · exact hnl_inner h'
              · simp at h'
            rw [ctf_some_to_gt (collapseWS inner) [] _ hM_gt hM_nl]
            rw [List.reverse_nil, List.nil_append]
            rw [collapseWS_idem]
            rw [beq_self_eq_true]
            rw [Bool.true_and]
            exact ih t hlen_t hnl_t
        · rw [cta_none_lt, cta_some_no_gt rest [] hmem hnlr]
          rw [List.reverse_nil, List.nil_append, ctf_none_lt]
          exact ctf_some_no_gt rest [] hmem hnlr
      · rw [cta_none_cons c rest hlt, ctf_none_cons c _ hlt]
        exact ih rest hrest hnlr

theorem ctf_rtws_aux :
    ∀ (n : Nat) (l : List Char), l.length ≤ n → '\n' ∉ l →
      (ctFixedAux none l = true → ctFixedAux none (rtws l) = true) ∧
      (∀ racc, ctFixedAux (some racc) l = true →
        ctFixedAux (some racc) (rtws l) = true) := by
  intro n
  induction n with
  | zero =>
    intro l hl _
    rw [List.length_eq_zero.mp (Nat.le_zero.mp hl)]
    exact ⟨fun _ => rfl, fun _ _ => rfl⟩
  | succ n ih =>
    intro l hl hnl
    cases l with
    | nil => exact ⟨fun _ => rfl, fun _ _ => rfl⟩
    | cons c rest =>
      have hrest : rest.length ≤ n := by
        simp only [List.length_cons] at hl; omega
      have hnlr : '\n' ∉ rest := fun hh => hnl (List.mem_cons_of_mem _ hh)
      have hc2 : c ≠ '\n' := fun hh => hnl (hh ▸ List.mem_cons_self _ _)
      by_cases hcond : ((rtws rest).isEmpty && jsWS c) = true
      · rw [rtws_cons, if_pos hcond]
        exact ⟨fun _ => rfl, fun _ _ => rfl⟩
      · rw [rtws_cons, if_neg hcond]
        constructor
        · intro h
          by_cases hlt : c = '<'
          · subst hlt
            rw [ctf_none_lt] at h
            rw [ctf_none_lt]
            exact (ih rest hrest hnlr).2 [] h
          · rw [ctf_none_cons c rest hlt] at h
            rw [ctf_none_cons c _ hlt]
            exact (ih rest hrest hnlr).1 h
        · intro racc h
          by_cases hgt : c = '>'
          · subst hgt
            rw [ctf_some_gt] at h
            obtain ⟨hbeq, hrest'⟩ := Bool.and_eq_true _ _ |>.mp h
            rw [ctf_some_gt, hbeq, Bool.true_and]
            exact (ih rest hrest hnlr).1 hrest'
          · rw [ctf_some_cons racc c rest hgt hc2] at h
            rw [ctf_some_cons racc c _ hgt hc2]
            exact (ih rest hrest hnlr).2 (c :: racc) h

theorem ctf_trimLine {l : List Char} (hnl : '\n' ∉ l)
    (h : ctFixedAux none l = true) : ctFixedAux none (trimLine l) = true := by
  unfold trimLine
  have hsplit := List.takeWhile_append_dropWhile jsWS l
  have hdrop : ctFixedAux none (l.dropWhile jsWS) = true := by
    rw [← hsplit] at h
    rw [ctf_skip_non_lt _ _
      (fun d hd => jsWS_ne_lt (List.mem_takeWhile_imp hd))] at h
    exact h
  have hnl_drop : '\n' ∉ l.dropWhile jsWS := by
    intro hh
    apply hnl
    rw [← hsplit]
    exact List.mem_append_right _ hh
  exact (ctf_rtws_aux (l.dropWhile jsWS).length _ le_rfl hnl_drop).1 hdrop

theorem pipelineC_idem (cs : List Char) :
    pipelineC (pipelineC cs) = pipelineC cs := by
  unfold pipelineC
  set mid := insertNL cs with hmid_def
  set lines := splitNL mid with hlines_def
  have hlines_ne : lines ≠ [] := splitNL_ne_nil mid
  have hlines_nn : ∀ l ∈ lines, '\n' ∉ l := mem_splitNL_no_nl mid
  have hmid : joinNL lines = mid := joinNL_splitNL mid
  have h1 : collapseTags mid = joinNL (lines.map collapseTags) := by
    rw [← hmid]
    exact collapseTags_joinNL lines hlines_ne hlines_nn
  have hCTnn : ∀ l ∈ lines.map collapseTags, '\n' ∉ l := by
    intro l hl
    obtain ⟨li, hli, rfl⟩ := List.mem_map.mp hl
    exact no_nl_collapseTags (hlines_nn li hli)
  have h2 : splitNL (collapseTags mid) = lines.map collapseTags := by
    rw [h1]
    exact splitNL_joinNL _ (by simpa using hlines_ne) hCTnn
  rw [h2]
  set ls2 := (lines.map collapseTags).map trimLine with hls2_def
  have hls2_nn : ∀ l ∈ ls2, '\n' ∉ l := by
    intro l hl
    obtain ⟨li, hli, rfl⟩ := List.mem_map.mp hl
    intro hh
    exact hCTnn li hli (mem_trimLine li '\n' hh)
  have hls2_ne : ls2 ≠ [] := by
    rw [hls2_def]
    simpa using hlines_ne
  have hls2_fix : ∀ l ∈ ls2, ctFixedAux none l = true := by
    intro l hl
    obtain ⟨li, hli, rfl⟩ := List.mem_map.mp hl
    obtain ⟨li0, hli0, rfl⟩ := List.mem_map.mp hli
    exact ctf_trimLine (no_nl_collapseTags (hlines_nn li0 hli0))
      (ctf_cta li0.length li0 le_rfl (hlines_nn li0 hli0))
  have hls2_trim : ∀ l ∈ ls2, trimLine l = l := by
    intro l hl
    obtain ⟨li, _, rfl⟩ := List.mem_map.mp hl
    exact trimLine_idem li
  have hchain_out : List.Chain' okPair (joinNL ls2) := by
    apply chain'_joinNL
    intro l hl
    obtain ⟨li, hli, rfl⟩ := List.mem_map.mp hl
    obtain ⟨li0, hli0, rfl⟩ := List.mem_map.mp hli
    apply chain'_trimLine
    apply chain'_collapseTags
    exact chain'_splitNL_pieces mid (hmid_def ▸ chain'_insertNL cs) li0 hli0
  have s1 : insertNL (joinNL ls2) = joinNL ls2 :=
    insertNL_eq_self (joinNL ls2).length _ le_rfl hchain_out
  have s2 : collapseTags (joinNL ls2) = joinNL ls2 := by
    rw [collapseTags_joinNL ls2 hls2_ne hls2_nn]
    have : ls2.map collapseTags = ls2 := by
      have hcongr : ∀ l ∈ ls2, collapseTags l = id l := by
        intro l hl
        exact ctFixed_collapseTags_id (hls2_fix l hl)
      rw [List.map_congr_left hcongr, List.map_id]
    rw [this]
  have s3 : splitNL (joinNL ls2) = ls2 := splitNL_joinNL ls2 hls2_ne hls2_nn
  rw [s1, s2, s3]
  have s4 : ls2.map trimLine = ls2 := by
    have hcongr : ∀ l ∈ ls2, trimLine l = id l := hls2_trim
    rw [List.map_congr_left hcongr, List.map_id]
  rw [s4]

theorem formatNormalize_idem (s : String) :
    formatNormalize (formatNormalize s) = formatNormalize s :=
  congrArg String.mk (pipelineC_idem s.data)

/-! ## Claim C5 — the formatter is idempotent -/

/-- C5: when a `formatXML` run succeeds with output `y`, and re-parsing and
re-serializing `y` reproduces `y` (the parse/serialize round trip of the
platform DOM on the formatter's own output), then running `formatXML` on `y`
returns `y` unchanged: the normalization pass is a fixed point on its own
image. -/
theorem format_idempotent (x y : String)
    (h1 : formatResult x = some y) (h2 : domSerialize y = some y) :
    formatResult y = some y := by
  unfold formatResult at h1 ⊢
  rw [h2]
  rcases hds : domSerialize x with _ | z
  · rw [hds] at h1
    exact absurd h1 (by simp)
  · rw [hds] at h1
    simp only [Option.map_some'] at h1 ⊢
    rw [← Option.some.inj h1, formatNormalize_idem]

set_option maxRecDepth 8000 in
theorem format_idempotent_witness :
    formatResult teiSmallDoc = some teiSmallFmt ∧
    domSerialize teiSmallFmt = some teiSmallFmt ∧
    formatResult teiSmallFmt = some teiSmallFmt :=
  ⟨by decide, by decide,
    format_idempotent teiSmallDoc teiSmallFmt (by decide) (by decide)⟩
